import Mathlib

/-!
Verification of the ampcode-connector routing and delivery engine.

This file shallowly embeds the parts of the TypeScript source that the
checked properties speak about:

* `src/routing/cooldown.ts` — per-(pool, account) 429/403 cooldown tracking;
* `src/routing/affinity.ts` — thread→(pool, account) pinning with a
  secondary active-count index;
* `src/routing/router.ts` — candidate construction, least-connections pick,
  thread-affinity routing and 429 rerouting;
* `src/server/server.ts` — the 429 retry/reroute engine and the health check;
* the SSE framing layer (`parse` / `encode`);
* `src/auth/store.ts` — credential rows with corruption handling;
* `src/routing/models.ts` and `src/utils/code-assist.ts`.

JS strings are modelled as `List Char` (named `Str`), machine timestamps as
`Int` (milliseconds), JS `Map`s as association lists, and the wall clock
(`Date.now()`), the upstream network, `JSON.parse`, `JSON.stringify`,
`Date.parse` and `crypto.randomUUID()` as explicit parameters, so every
definition is executable and matches the source line by line.
-/

set_option maxHeartbeats 1000000

/-- JS strings, modelled as lists of characters. -/
abbrev Str := List Char

/-- Coerce a Lean string literal to the `Str` model. -/
def str (s : String) : Str := s.toList

/-- The whitespace characters recognised by the model of JS
`String.prototype.trim` / `trimStart` (the ASCII subset). -/
def isWs (c : Char) : Bool :=
  c = ' ' || c = '\t' || c = '\n' || c = '\r' || c = '\x0b' || c = '\x0c'

/-- Model of JS `trimStart`: drop leading whitespace. -/
def trimStart (s : Str) : Str := s.dropWhile isWs

/-- Model of JS `trim`: drop leading and trailing whitespace. -/
def trim (s : Str) : Str := ((s.dropWhile isWs).reverse.dropWhile isWs).reverse

/-- Decimal digit character for a digit value 0–9. -/
def digitCh (d : Nat) : Char :=
  match d with
  | 0 => '0' | 1 => '1' | 2 => '2' | 3 => '3' | 4 => '4'
  | 5 => '5' | 6 => '6' | 7 => '7' | 8 => '8' | _ => '9'

/-- Digit value of a decimal digit character. -/
def chDigit (c : Char) : Nat := c.toNat - 48

/-- Is `c` a decimal digit (`0`–`9`)? -/
def isDigitCh (c : Char) : Bool := '0' ≤ c && c ≤ '9'

/-- Fuel-driven digit accumulator behind `natRepr` (structural, so that it
evaluates inside the kernel). -/
def natReprGo : Nat → Nat → Str → Str
  | 0, _, acc => acc
  | fuel + 1, n, acc =>
    if n < 10 then digitCh n :: acc
    else natReprGo fuel (n / 10) (digitCh (n % 10) :: acc)

/-- Decimal rendering of a natural number (model of JS number→string). -/
def natRepr (n : Nat) : Str := natReprGo (n + 1) n []

/-- Decimal rendering of an integer (model of JS number→string for
integral values). -/
def intRepr (i : Int) : Str :=
  if i < 0 then '-' :: natRepr i.natAbs else natRepr i.natAbs

/-- Horner evaluation of a big-endian list of decimal digit characters. -/
def natFromDigits (l : Str) : Nat := l.foldl (fun a c => a * 10 + chDigit c) 0

/-- A maximal run of decimal digits at the front of `t`, as a number;
`none` when there is no digit (model of the digit-consuming core of JS
`parseInt`). -/
def parseDigits (t : Str) : Option Nat :=
  let ds := t.takeWhile isDigitCh
  if ds.isEmpty then none else some (natFromDigits ds)

/-- Model of JS `parseInt(s, 10)` on an already trimmed string: optional
sign, then a maximal run of decimal digits; `none` stands for `NaN`. -/
def jsParseInt (s : Str) : Option Int :=
  match s with
  | [] => none
  | c :: t =>
    if c = '-' then (parseDigits t).map (fun n => -(Int.ofNat n))
    else if c = '+' then (parseDigits t).map Int.ofNat
    else (parseDigits (c :: t)).map Int.ofNat

theorem chDigit_digitCh {d : Nat} (h : d < 10) : chDigit (digitCh d) = d := by
  interval_cases d <;> rfl

theorem isDigitCh_digitCh {d : Nat} (h : d < 10) : isDigitCh (digitCh d) = true := by
  interval_cases d <;> rfl

theorem natFromDigits_digits (ds : List Nat) (h : ∀ d ∈ ds, d < 10) :
    natFromDigits ((ds.map digitCh).reverse) = Nat.ofDigits 10 ds := by
  induction ds with
  | nil => rfl
  | cons d ds ih =>
    have hd : d < 10 := h d (List.mem_cons_self d ds)
    have hds : ∀ x ∈ ds, x < 10 := fun x hx => h x (List.mem_cons_of_mem d hx)
    simp only [List.map_cons, List.reverse_cons, natFromDigits, List.foldl_append,
      List.foldl_cons, List.foldl_nil, Nat.ofDigits_cons]
    rw [show List.foldl (fun a c => a * 10 + chDigit c) 0 (ds.map digitCh).reverse
          = natFromDigits (ds.map digitCh).reverse from rfl, ih hds,
      chDigit_digitCh hd]
    ring

theorem natReprGo_eq :
    ∀ (fuel n : Nat) (acc : Str), n < fuel →
      natReprGo fuel n acc
        = (if n = 0 then ['0'] else ((Nat.digits 10 n).map digitCh).reverse) ++ acc := by
  intro fuel
  induction fuel with
  | zero => intro n acc h; omega
  | succ f ih =>
    intro n acc h
    rw [natReprGo]
    by_cases h10 : n < 10
    · rw [if_pos h10]
      by_cases h0 : n = 0
      · subst h0; rfl
      · rw [if_neg h0, Nat.digits_def' (by norm_num : (1 : ℕ) < 10) (Nat.pos_of_ne_zero h0),
          Nat.div_eq_of_lt h10, Nat.mod_eq_of_lt h10, Nat.digits_zero]
        rfl
    · rw [if_neg h10]
      have hn0 : n ≠ 0 := by omega
      have hdiv : n / 10 < f :=
        lt_of_lt_of_le (Nat.div_lt_self (by omega) (by norm_num)) (by omega)
      rw [ih (n / 10) (digitCh (n % 10) :: acc) hdiv]
      have hd0 : n / 10 ≠ 0 := by
        intro hh
        have := (Nat.div_eq_zero_iff (by norm_num)).mp hh
        omega
      rw [if_neg hd0, if_neg hn0,
        Nat.digits_def' (by norm_num : (1 : ℕ) < 10) (Nat.pos_of_ne_zero hn0),
        List.map_cons, List.reverse_cons, List.append_assoc]
      rfl

/-- The structural rendering agrees with the `Nat.digits` formula. -/
theorem natRepr_eq (n : Nat) :
    natRepr n = if n = 0 then ['0'] else ((Nat.digits 10 n).map digitCh).reverse := by
  rw [natRepr, natReprGo_eq (n + 1) n [] (by omega), List.append_nil]

theorem natFromDigits_natRepr (n : Nat) : natFromDigits (natRepr n) = n := by
  by_cases h : n = 0
  · subst h; rfl
  · rw [natRepr_eq, if_neg h, natFromDigits_digits _ (fun d hd => Nat.digits_lt_base (by norm_num) hd),
      Nat.ofDigits_digits]

theorem natRepr_all_digits (n : Nat) : ∀ c ∈ natRepr n, isDigitCh c = true := by
  intro c hc
  by_cases h : n = 0
  · subst h
    rw [show natRepr 0 = ['0'] from rfl, List.mem_singleton] at hc
    subst hc
    decide
  · rw [natRepr_eq, if_neg h] at hc
    rw [List.mem_reverse, List.mem_map] at hc
    obtain ⟨d, hd, rfl⟩ := hc
    exact isDigitCh_digitCh (Nat.digits_lt_base (by norm_num) hd)

theorem natRepr_ne_nil (n : Nat) : natRepr n ≠ [] := by
  by_cases h : n = 0
  · subst h; decide
  · rw [natRepr_eq, if_neg h]
    simp only [ne_eq, List.reverse_eq_nil_iff, List.map_eq_nil_iff]
    exact Nat.digits_ne_nil_iff_ne_zero.mpr h

theorem takeWhile_all_eq_self {p : Char → Bool} {l : Str} (h : ∀ c ∈ l, p c = true) :
    l.takeWhile p = l := by
  induction l with
  | nil => rfl
  | cons c t ih =>
    rw [List.takeWhile_cons, h c (List.mem_cons_self c t), if_pos rfl,
      ih (fun x hx => h x (List.mem_cons_of_mem c hx))]

theorem parseDigits_all {t : Str} (hne : t ≠ []) (hall : ∀ c ∈ t, isDigitCh c = true) :
    parseDigits t = some (natFromDigits t) := by
  rw [parseDigits]
  simp only [takeWhile_all_eq_self hall]
  rw [if_neg (by simpa [List.isEmpty_iff] using hne)]

theorem jsParseInt_natRepr (n : Nat) : jsParseInt (natRepr n) = some (n : Int) := by
  have hne := natRepr_ne_nil n
  have hall := natRepr_all_digits n
  obtain ⟨c, t, hct⟩ : ∃ c t, natRepr n = c :: t := by
    cases h : natRepr n with
    | nil => exact absurd h hne
    | cons c t => exact ⟨c, t, rfl⟩
  have hcdig : isDigitCh c = true := hall c (hct ▸ List.mem_cons_self c t)
  have hcm : c ≠ '-' := by intro h; rw [h] at hcdig; exact absurd hcdig (by decide)
  have hcp : c ≠ '+' := by intro h; rw [h] at hcdig; exact absurd hcdig (by decide)
  rw [hct]
  simp only [jsParseInt, if_neg hcm, if_neg hcp]
  rw [← hct, parseDigits_all hne hall, natFromDigits_natRepr]
  rfl

theorem jsParseInt_intRepr (i : Int) : jsParseInt (intRepr i) = some i := by
  by_cases h : i < 0
  · rw [intRepr, if_pos h]
    have habs : -((i.natAbs : Nat) : Int) = i := by omega
    simp only [jsParseInt, if_pos rfl, if_true,
      parseDigits_all (natRepr_ne_nil _) (natRepr_all_digits _), natFromDigits_natRepr]
    rw [show Option.map (fun n => -Int.ofNat n) (some i.natAbs)
          = some (-((i.natAbs : Nat) : Int)) from rfl, habs]
  · rw [intRepr, if_neg h, jsParseInt_natRepr]
    have habs : ((i.natAbs : Nat) : Int) = i := by omega
    rw [habs]

/-! ### Model of JS `String.prototype.split`

The source splits SSE streams on the two separators `"\n\n"` (record
boundary) and `"\n"` (line boundary).  `splitCh a` models `s.split(a)` for a
one-character separator and `splitNN` models `s.split("\n\n")`, both with
the JS semantics of scanning left to right for the leftmost occurrence. -/

/-- Model of `s.split(a)` for a single-character separator `a`. -/
def splitCh (a : Char) : Str → List Str
  | [] => [[]]
  | c :: t =>
    if c = a then [] :: splitCh a t
    else
      match splitCh a t with
      | p :: ps => (c :: p) :: ps
      | [] => [[c]]

/-- Model of `s.split("\n\n")`. -/
def splitNN : Str → List Str
  | [] => [[]]
  | [c] => [[c]]
  | c :: d :: t =>
    if c = '\n' ∧ d = '\n' then [] :: splitNN t
    else
      match splitNN (d :: t) with
      | p :: ps => (c :: p) :: ps
      | [] => [[c]]

/-- Join a list of parts with a separator (inverse image of the split). -/
def joinSep (sep : Str) : List Str → Str
  | [] => []
  | [x] => x
  | x :: y :: t => x ++ sep ++ joinSep sep (y :: t)

theorem splitCh_ne_nil (a : Char) (s : Str) : splitCh a s ≠ [] := by
  induction s with
  | nil => simp [splitCh]
  | cons c t ih =>
    rw [splitCh]
    split
    · simp
    · cases h : splitCh a t with
      | nil => simp
      | cons p ps => simp

theorem splitNN_ne_nil (s : Str) : splitNN s ≠ [] := by
  match s with
  | [] => simp [splitNN]
  | [c] => simp [splitNN]
  | c :: d :: t =>
    rw [splitNN]
    split
    · simp
    · cases hs : splitNN (d :: t) with
      | nil => simp
      | cons p ps => simp

theorem splitCh_append {a : Char} {l : Str} (hl : a ∉ l) {s : Str} {p : Str} {ps : List Str}
    (hs : splitCh a s = p :: ps) : splitCh a (l ++ s) = (l ++ p) :: ps := by
  induction l with
  | nil => simpa using hs
  | cons c l' ih =>
    have hca : c ≠ a := fun h => hl (h ▸ List.mem_cons_self c l')
    rw [List.cons_append, splitCh, if_neg hca,
      ih (fun h => hl (List.mem_cons_of_mem c h))]
    simp

theorem splitCh_hit (a : Char) (t : Str) : splitCh a (a :: t) = [] :: splitCh a t := by
  rw [splitCh, if_pos rfl]

theorem splitCh_no_sep (a : Char) (s : Str) : ∀ l ∈ splitCh a s, a ∉ l := by
  induction s with
  | nil => simp [splitCh]
  | cons c t ih =>
    rw [splitCh]
    split
    · next h =>
      intro l hl
      rcases List.mem_cons.mp hl with rfl | hl
      · simp
      · exact ih l hl
    · next h =>
      cases hs : splitCh a t with
      | nil => exact absurd hs (splitCh_ne_nil a t)
      | cons p ps =>
        intro l hl
        rcases List.mem_cons.mp hl with rfl | hl
        · intro hm
          rcases List.mem_cons.mp hm with rfl | hm
          · exact h rfl
          · exact ih p (hs ▸ List.mem_cons_self p ps) hm
        · exact ih l (hs ▸ List.mem_cons_of_mem p hl)

theorem splitCh_of_not_mem {a : Char} {s : Str} (h : a ∉ s) : splitCh a s = [s] := by
  induction s with
  | nil => rfl
  | cons c t ih =>
    have hca : c ≠ a := fun hh => h (hh ▸ List.mem_cons_self c t)
    rw [splitCh, if_neg hca, ih (fun hh => h (List.mem_cons_of_mem c hh))]

theorem splitCh_joinSep {a : Char} :
    ∀ (parts : List Str), parts ≠ [] → (∀ p ∈ parts, a ∉ p) →
      splitCh a (joinSep [a] parts) = parts := by
  intro parts
  induction parts with
  | nil => intro h; exact absurd rfl h
  | cons p rest ih =>
    intro _ hmem
    cases rest with
    | nil => exact splitCh_of_not_mem (hmem p (by simp [List.mem_cons]))
    | cons q t =>
      rw [show joinSep [a] (p :: q :: t) = p ++ (a :: joinSep [a] (q :: t)) by
            simp [joinSep, List.append_assoc]]
      have htail := ih (by simp) (fun x hx => hmem x (List.mem_cons_of_mem p hx))
      rw [splitCh_append (hmem p (by simp [List.mem_cons]))
            (by rw [splitCh_hit, htail])]
      simp

theorem splitNN_hit (t : Str) : splitNN ('\n' :: '\n' :: t) = [] :: splitNN t := by
  rw [splitNN, if_pos ⟨rfl, rfl⟩]

theorem splitNN_append {l : Str} (hl : '\n' ∉ l) :
    ∀ {s p ps}, splitNN s = p :: ps → splitNN (l ++ s) = (l ++ p) :: ps := by
  induction l with
  | nil => intro s p ps hs; simpa using hs
  | cons c l' ih =>
    intro s p ps hs
    have hcn : c ≠ '\n' := fun h => hl (h ▸ List.mem_cons_self c l')
    have ih' := ih (fun h => hl (List.mem_cons_of_mem c h)) hs
    rw [List.cons_append]
    cases hls : l' ++ s with
    | nil =>
      rw [List.append_eq_nil] at hls
      obtain ⟨rfl, rfl⟩ := hls
      rw [show splitNN [] = [[]] from rfl] at hs
      injection hs with h1 h2
      subst h1; subst h2
      simp [splitNN]
    | cons d t =>
      rw [splitNN, if_neg (fun h => hcn h.1), ← hls, ih']
      simp

theorem splitNN_skip_nl {d : Char} (hd : d ≠ '\n') (t : Str) {p : Str} {ps : List Str}
    (h : splitNN (d :: t) = p :: ps) :
    splitNN ('\n' :: d :: t) = ('\n' :: p) :: ps := by
  rw [splitNN, if_neg (fun hh => hd hh.2), h]

/-- Splitting `B₁ ++ "\n\n" ++ rest` where `B₁` is a newline-joined list of
non-empty newline-free lines produces `B₁` and then the split of `rest`. -/
theorem splitNN_block {lines : List Str} :
    lines ≠ [] → (∀ l ∈ lines, l ≠ [] ∧ '\n' ∉ l) →
    ∀ (s' : Str),
      splitNN (joinSep ['\n'] lines ++ '\n' :: '\n' :: s')
        = joinSep ['\n'] lines :: splitNN s' := by
  induction lines with
  | nil => intro h; exact absurd rfl h
  | cons p rest ih =>
    intro _ hmem s'
    cases rest with
    | nil =>
      rw [joinSep]
      cases hs : splitNN s' with
      | nil => exact absurd hs (splitNN_ne_nil s')
      | cons q qs =>
        rw [splitNN_append (hmem p (by simp [List.mem_cons])).2
              (by rw [splitNN_hit, hs])]
        simp
    | cons q t =>
      have hq : q ≠ [] ∧ '\n' ∉ q := hmem q (by simp [List.mem_cons])
      obtain ⟨d, q', hdq⟩ : ∃ d q', q = d :: q' := by
        cases hqq : q with
        | nil => exact absurd hqq hq.1
        | cons d q' => exact ⟨d, q', rfl⟩
      have hdn : d ≠ '\n' := fun h => hq.2 (h ▸ hdq ▸ List.mem_cons_self d q')
      have hjq : ∃ rest', joinSep ['\n'] (q :: t) ++ '\n' :: '\n' :: s' = d :: rest' := by
        cases t with
        | nil => exact ⟨q' ++ '\n' :: '\n' :: s', by rw [joinSep, hdq]; simp⟩
        | cons r t' =>
          refine ⟨q' ++ '\n' :: joinSep ['\n'] (r :: t') ++ '\n' :: '\n' :: s', ?_⟩
          rw [show joinSep ['\n'] (q :: r :: t') = q ++ ('\n' :: joinSep ['\n'] (r :: t')) by
                simp [joinSep, List.append_assoc], hdq]
          simp [List.append_assoc]
      obtain ⟨rest', hrest⟩ := hjq
      have htail := ih (by simp) (fun x hx => hmem x (List.mem_cons_of_mem p hx)) s'
      have hmid : splitNN (('\n' :: joinSep ['\n'] (q :: t)) ++ '\n' :: '\n' :: s')
          = ('\n' :: joinSep ['\n'] (q :: t)) :: splitNN s' := by
        rw [List.cons_append, hrest, splitNN_skip_nl hdn _ (hrest ▸ htail)]
      have hfin := splitNN_append (hmem p (by simp [List.mem_cons])).2 hmid
      rw [show joinSep ['\n'] (p :: q :: t) = p ++ ('\n' :: joinSep ['\n'] (q :: t)) by
            simp [joinSep, List.append_assoc]]
      rw [List.append_assoc]
      exact hfin

/-! ### SSE framing

Translation of `parse` and `encode` from the stream rewriter
(`Chunk{event?, id?, retry?, data}` records, `"\n\n"` record separator,
`"\n"` line separator, multi-line `data` concatenated with `"\n"`). -/

/-- An SSE record as in the source: optional `event`, `id`, `retry` headers
and a mandatory `data` payload. -/
structure Chunk where
  event : Option Str
  data : Str
  id : Option Str
  retry : Option Int
deriving DecidableEq, Repr

/-- The partially built record while scanning the lines of a block
(`data` not yet known to be present). -/
structure PartialChunk where
  event : Option Str
  data : Option Str
  id : Option Str
  retry : Option Int
deriving DecidableEq, Repr

/-- Starting state of a block scan (the TS `const chunk = \x7b\x7d`). -/
def emptyPartial : PartialChunk := ⟨none, none, none, none⟩

/-- `chunk.data = chunk.data ? chunk.data + "\n" + value : value` — note
the *truthiness* test: an empty accumulated `data` is replaced, not
extended. -/
def dataStep (d : Option Str) (value : Str) : Str :=
  match d with
  | some d0 => if d0.isEmpty then value else d0 ++ '\n' :: value
  | none => value

/-- One line of a block, as handled by the `for` loop in `parse`. -/
def processLine (pc : PartialChunk) (line : Str) : PartialChunk :=
  if (str "event:").isPrefixOf line then
    { pc with event := some (trim (line.drop 6)) }
  else if (str "data:").isPrefixOf line then
    { pc with data := some (dataStep pc.data (trimStart (line.drop 5))) }
  else if (str "id:").isPrefixOf line then
    { pc with id := some (trim (line.drop 3)) }
  else if (str "retry:").isPrefixOf line then
    match jsParseInt (trim (line.drop 6)) with
    | some v => { pc with retry := some v }
    | none => pc
  else pc

/-- One `"\n\n"`-separated block of the stream: skipped when blank,
otherwise scanned line by line; the record is kept only if it has data. -/
def parseBlock (block : Str) : Option Chunk :=
  if (trim block).isEmpty then none
  else
    let pc := (splitCh '\n' block).foldl processLine emptyPartial
    match pc.data with
    | some d => some { event := pc.event, data := d, id := pc.id, retry := pc.retry }
    | none => none

/-- `parse` from the source: split on `"\n\n"`, parse each block. -/
def parse (raw : Str) : List Chunk := (splitNN raw).filterMap parseBlock

/-- `encode` from the source: optional `event`/`id`/`retry` header lines,
each `data` line prefixed with `"data: "`, terminated by a blank line. -/
def encode (c : Chunk) : Str :=
  (match c.event with
    | some e => if e.isEmpty then [] else str "event: " ++ e ++ ['\n']
    | none => [])
  ++ (match c.id with
    | some i => if i.isEmpty then [] else str "id: " ++ i ++ ['\n']
    | none => [])
  ++ (match c.retry with
    | some r => str "retry: " ++ intRepr r ++ ['\n']
    | none => [])
  ++ ((splitCh '\n' c.data).map (fun line => str "data: " ++ line ++ ['\n'])).flatten
  ++ ['\n']

example : parse (str "data: a\n\n") = [⟨none, ['a'], none, none⟩] := by decide

example : parse (str "event: m\ndata: a\ndata: b\n\nid: 7\ndata: x\n\n")
    = [⟨some ['m'], ['a', '\n', 'b'], none, none⟩, ⟨none, ['x'], some ['7'], none⟩] := by decide

example : encode ⟨some ['m'], ['a', '\n', 'b'], none, none⟩
    = str "event: m\ndata: a\ndata: b\n\n" := by decide

/-! ### Whitespace and token lemmas -/

/-- A well-formed header token: non-empty with no whitespace at either
edge (the shape `trim` produces on non-empty output). -/
def wfToken (s : Str) : Prop :=
  s ≠ [] ∧ (∀ c, s.head? = some c → isWs c = false) ∧
    (∀ c, s.getLast? = some c → isWs c = false)

theorem mem_of_getLast?_eq {l : Str} {a : Char} (h : l.getLast? = some a) : a ∈ l := by
  obtain ⟨hne, rfl⟩ := List.mem_getLast?_eq_getLast (l := l) (x := a)
    (by simp [Option.mem_def, h])
  exact List.getLast_mem hne

theorem dropWhile_eq_self_of_head {p : Char → Bool} {l : Str}
    (h : ∀ c, l.head? = some c → p c = false) : l.dropWhile p = l := by
  cases l with
  | nil => rfl
  | cons c t => rw [List.dropWhile_cons, if_neg (by simp [h c rfl])]

theorem dropWhile_head_false {p : Char → Bool} {l : Str} :
    ∀ c, (l.dropWhile p).head? = some c → p c = false := by
  induction l with
  | nil => intro c h; simp at h
  | cons d t ih =>
    intro c h
    rw [List.dropWhile_cons] at h
    by_cases hd : p d
    · rw [if_pos hd] at h
      exact ih c h
    · rw [if_neg hd] at h
      simp only [List.head?_cons, Option.some_inj] at h
      subst h
      simpa using hd

theorem trim_eq_self {s : Str} (h : ∀ c, s.head? = some c → isWs c = false)
    (h' : ∀ c, s.getLast? = some c → isWs c = false) : trim s = s := by
  rw [trim, dropWhile_eq_self_of_head h,
    dropWhile_eq_self_of_head (by
      intro c hc
      rw [List.head?_reverse] at hc
      exact h' c hc),
    List.reverse_reverse]

theorem trim_eq_self_of_wfToken {s : Str} (h : wfToken s) : trim s = s :=
  trim_eq_self h.2.1 h.2.2

theorem trim_space_cons {e : Str} (h : wfToken e) : trim (' ' :: e) = e := by
  rw [trim, List.dropWhile_cons, if_pos (by decide), dropWhile_eq_self_of_head h.2.1,
    dropWhile_eq_self_of_head (by
      intro c hc
      rw [List.head?_reverse] at hc
      exact h.2.2 c hc),
    List.reverse_reverse]

theorem trimStart_space_cons {v : Str} (h : trimStart v = v) : trimStart (' ' :: v) = v := by
  rw [trimStart, List.dropWhile_cons, if_pos (by decide)]
  exact h

theorem trimStart_idem (s : Str) : trimStart (trimStart s) = trimStart s :=
  dropWhile_eq_self_of_head (fun c hc => dropWhile_head_false c hc)

theorem mem_of_mem_trimStart {s : Str} {c : Char} (h : c ∈ trimStart s) : c ∈ s :=
  (List.dropWhile_sublist isWs).mem h

theorem mem_of_mem_trim {s : Str} {c : Char} (h : c ∈ trim s) : c ∈ s := by
  rw [trim, List.mem_reverse] at h
  have h1 := (List.dropWhile_sublist isWs).mem h
  rw [List.mem_reverse] at h1
  exact (List.dropWhile_sublist isWs).mem h1

theorem wfToken_of_trim_ne_nil {s : Str} (h : trim s ≠ []) : wfToken (trim s) := by
  refine ⟨h, ?_, ?_⟩
  · intro c hc
    rw [trim, List.head?_reverse] at hc
    have hsfx : (s.dropWhile isWs).reverse.dropWhile isWs <:+ (s.dropWhile isWs).reverse :=
      List.dropWhile_suffix isWs
    obtain ⟨pre, hpre⟩ := hsfx
    have hne : (s.dropWhile isWs).reverse.dropWhile isWs ≠ [] := by
      intro hnil
      rw [trim, hnil] at h
      exact h rfl
    have hx : (List.dropWhile isWs (List.dropWhile isWs s).reverse).getLast?
        = ((List.dropWhile isWs s).reverse).getLast? := by
      conv_rhs => rw [← hpre]
      rw [List.getLast?_append_of_ne_nil _ hne]
    rw [hx, List.getLast?_reverse] at hc
    exact dropWhile_head_false c hc
  · intro c hc
    rw [trim, List.getLast?_reverse] at hc
    exact dropWhile_head_false c hc

theorem trim_idem (s : Str) : trim (trim s) = trim s := by
  by_cases h : trim s = []
  · rw [h]; rfl
  · exact trim_eq_self_of_wfToken (wfToken_of_trim_ne_nil h)

theorem mem_dropWhile_of_not {p : Char → Bool} {s : Str} {c : Char}
    (hc : c ∈ s) (hp : p c = false) : c ∈ s.dropWhile p := by
  induction s with
  | nil => simp at hc
  | cons d t ih =>
    rw [List.dropWhile_cons]
    by_cases hd : p d
    · rw [if_pos hd]
      rcases List.mem_cons.mp hc with rfl | hm
      · rw [hd] at hp; cases hp
      · exact ih hm
    · rw [if_neg hd]
      exact hc

theorem trim_ne_nil_of_mem {s : Str} {c : Char} (hc : c ∈ s) (hw : isWs c = false) :
    trim s ≠ [] := by
  intro h
  rw [trim, List.reverse_eq_nil_iff, List.dropWhile_eq_nil_iff] at h
  have h1 : c ∈ (s.dropWhile isWs).reverse := by
    rw [List.mem_reverse]
    exact mem_dropWhile_of_not hc hw
  rw [h c h1] at hw
  cases hw

/-! ### Round-trip development for the SSE layer -/

/-- Accumulate a list of data line values the way the block scanner does
(`dataStep` per value). -/
def dataFold (d : Option Str) : List Str → Option Str
  | [] => d
  | v :: vs => dataFold (some (dataStep d v)) vs

/-- `"\n"`-prefixed concatenation, i.e. `"\nv₁\nv₂…"`. -/
def nlJoin (vs : List Str) : Str := (vs.map (fun v => '\n' :: v)).flatten

/-- The well-formedness a parsed chunk satisfies when its `event` and `id`
fields are not the empty string: trimmed newline-free headers, and a `data`
payload that the data-line accumulator reproduces from its own lines. -/
def wfChunk (c : Chunk) : Prop :=
  (∀ e, c.event = some e → wfToken e ∧ '\n' ∉ e) ∧
  (∀ i, c.id = some i → wfToken i ∧ '\n' ∉ i) ∧
  dataFold none (splitCh '\n' c.data) = some c.data ∧
  (∀ l ∈ splitCh '\n' c.data, trimStart l = l)

theorem dataFold_some_ne :
    ∀ (vs : List Str) (d : Str), d ≠ [] → dataFold (some d) vs = some (d ++ nlJoin vs) := by
  intro vs
  induction vs with
  | nil => intro d _; simp [dataFold, nlJoin]
  | cons v vs ih =>
    intro d hd
    rw [dataFold, show dataStep (some d) v = d ++ '\n' :: v by
          rw [dataStep, if_neg (by simpa [List.isEmpty_iff] using hd)],
      ih _ (by simp)]
    simp [nlJoin, List.append_assoc]

theorem dataFold_none_cons (v : Str) (vs : List Str) :
    dataFold none (v :: vs) = dataFold (some v) vs := rfl

theorem dataFold_some_nil (vs : List Str) (h : vs ≠ []) :
    dataFold (some []) vs = dataFold none vs := by
  cases vs with
  | nil => exact absurd rfl h
  | cons v vs => rfl

theorem dataFold_none_dropWhile :
    ∀ (vs : List Str) {w : Str} {ws : List Str},
      vs.dropWhile List.isEmpty = w :: ws → dataFold none vs = some (w ++ nlJoin ws) := by
  intro vs
  induction vs with
  | nil => intro w ws h; simp at h
  | cons v vs ih =>
    intro w ws h
    rw [List.dropWhile_cons] at h
    by_cases hv : v = []
    · subst hv
      rw [if_pos (by rfl)] at h
      have hvs : vs ≠ [] := by
        intro hnil
        rw [hnil] at h
        simp at h
      rw [dataFold_none_cons, dataFold_some_nil vs hvs, ih h]
    · rw [if_neg (by simpa [List.isEmpty_iff] using hv)] at h
      injection h with h1 h2
      subst h1; subst h2
      rw [dataFold_none_cons, dataFold_some_ne _ _ hv]

theorem joinSep_nl_eq (w : Str) (ws : List Str) :
    joinSep ['\n'] (w :: ws) = w ++ nlJoin ws := by
  induction ws generalizing w with
  | nil => simp [joinSep, nlJoin]
  | cons x ws ih =>
    rw [joinSep, ih x]
    simp [nlJoin, List.append_assoc]

theorem dropWhile_head_false' {α : Type} {p : α → Bool} {l : List α} :
    ∀ c, (l.dropWhile p).head? = some c → p c = false := by
  induction l with
  | nil => intro c h; simp at h
  | cons d t ih =>
    intro c h
    rw [List.dropWhile_cons] at h
    by_cases hd : p d
    · rw [if_pos hd] at h
      exact ih c h
    · rw [if_neg hd] at h
      simp only [List.head?_cons, Option.some_inj] at h
      subst h
      simpa using hd

theorem dataFold_none_allEmpty :
    ∀ (vs : List Str), vs ≠ [] → (∀ v ∈ vs, v = []) → dataFold none vs = some [] := by
  intro vs
  induction vs with
  | nil => intro h; exact absurd rfl h
  | cons v vs ih =>
    intro _ hall
    have hv : v = [] := hall v (List.mem_cons_self v vs)
    subst hv
    rw [dataFold_none_cons]
    cases vs with
    | nil => rfl
    | cons u us =>
      rw [dataFold_some_nil _ (by simp)]
      exact ih (by simp) (fun x hx => hall x (List.mem_cons_of_mem _ hx))

/-- Any output of the data-line accumulator is reproduced by running the
accumulator over its own `"\n"`-split, with every line left-trimmed. -/
theorem dataFold_wf {vs : List Str} {d : Str}
    (hvs : ∀ v ∈ vs, trimStart v = v ∧ '\n' ∉ v)
    (hd : dataFold none vs = some d) :
    dataFold none (splitCh '\n' d) = some d ∧ ∀ l ∈ splitCh '\n' d, trimStart l = l := by
  cases hdw : vs.dropWhile List.isEmpty with
  | nil =>
    have hall : ∀ v ∈ vs, v = [] := by
      rw [List.dropWhile_eq_nil_iff] at hdw
      exact fun v hv => by simpa [List.isEmpty_iff] using hdw v hv
    have hvne : vs ≠ [] := by
      intro hnil
      rw [hnil] at hd
      cases hd
    have hfold := dataFold_none_allEmpty vs hvne hall
    rw [hd] at hfold
    injection hfold with h1
    subst h1
    constructor
    · rfl
    · intro l hl
      have hll : l = [] := by simpa [splitCh] using hl
      subst hll
      rfl
  | cons w ws =>
    have hw_mem : ∀ x ∈ w :: ws, x ∈ vs := fun x hx =>
      (List.dropWhile_sublist _).subset (hdw ▸ hx)
    have hwne : w ≠ [] := by
      have hh := dropWhile_head_false' (p := (List.isEmpty : Str → Bool)) (l := vs) w
        (by rw [hdw]; rfl)
      simpa [List.isEmpty_iff] using hh
    have hno : ∀ x ∈ w :: ws, '\n' ∉ x := fun x hx => (hvs x (hw_mem x hx)).2
    have hts : ∀ x ∈ w :: ws, trimStart x = x := fun x hx => (hvs x (hw_mem x hx)).1
    have hdval : d = w ++ nlJoin ws := by
      have hh := dataFold_none_dropWhile vs hdw
      rw [hd] at hh
      exact Option.some.inj hh
    have hsplit : splitCh '\n' d = w :: ws := by
      rw [hdval, ← joinSep_nl_eq]
      exact splitCh_joinSep _ (by simp) (fun p hp => hno p hp)
    refine ⟨?_, fun l hl => hts l (hsplit ▸ hl)⟩
    rw [hsplit, dataFold_none_cons, dataFold_some_ne ws w hwne, hdval]

/-- The list of lines `encode` emits for a chunk, in emission order. -/
def encLines (c : Chunk) : List Str :=
  (match c.event with
    | some e => if e.isEmpty then [] else [str "event: " ++ e]
    | none => [])
  ++ (match c.id with
    | some i => if i.isEmpty then [] else [str "id: " ++ i]
    | none => [])
  ++ (match c.retry with
    | some r => [str "retry: " ++ intRepr r]
    | none => [])
  ++ (splitCh '\n' c.data).map (fun line => str "data: " ++ line)

theorem flatten_map_append_nl :
    ∀ (ls : List Str), ls ≠ [] →
      (ls.map (fun l => l ++ ['\n'])).flatten = joinSep ['\n'] ls ++ ['\n'] := by
  intro ls
  induction ls with
  | nil => intro h; exact absurd rfl h
  | cons x rest ih =>
    intro _
    cases rest with
    | nil => simp [joinSep]
    | cons y t =>
      rw [List.map_cons, List.flatten_cons, ih (by simp),
        show joinSep ['\n'] (x :: y :: t) = x ++ ('\n' :: joinSep ['\n'] (y :: t)) by
          simp [joinSep, List.append_assoc]]
      simp [List.append_assoc]

theorem append_ne_nil_right {α : Type} (xs ys : List α) (h : ys ≠ []) : xs ++ ys ≠ [] := by
  intro hh
  rw [List.append_eq_nil] at hh
  exact h hh.2

theorem encLines_ne_nil (c : Chunk) : encLines c ≠ [] := by
  rw [encLines]
  apply append_ne_nil_right
  intro h
  rw [List.map_eq_nil_iff] at h
  exact splitCh_ne_nil '\n' c.data h

theorem encode_eq (c : Chunk) :
    encode c = joinSep ['\n'] (encLines c) ++ ['\n', '\n'] := by
  have hlne := encLines_ne_nil c
  rw [show joinSep ['\n'] (encLines c) ++ ['\n', '\n']
      = ((encLines c).map (fun l => l ++ ['\n'])).flatten ++ ['\n'] by
        rw [flatten_map_append_nl _ hlne]
        simp [List.append_assoc]]
  rcases c with ⟨ev, da, i, re⟩
  rcases ev with _ | e <;> rcases i with _ | iv <;> rcases re with _ | r <;>
    simp [encode, encLines, List.map_append, List.flatten_append, List.map_map,
      Function.comp_def, List.append_assoc] <;>
    split_ifs <;>
    simp [List.append_assoc]

theorem not_isWs_of_isDigitCh {c : Char} (h : isDigitCh c = true) : isWs c = false := by
  by_contra hw
  rw [Bool.not_eq_false, isWs] at hw
  simp only [Bool.or_eq_true, decide_eq_true_eq] at hw
  rcases hw with ((((rfl | rfl) | rfl) | rfl) | rfl) | rfl <;> cases h

theorem ne_nl_of_isDigitCh {c : Char} (h : isDigitCh c = true) : c ≠ '\n' := by
  intro hc
  subst hc
  cases h

theorem intRepr_chars (r : Int) : ∀ c ∈ intRepr r, isWs c = false ∧ c ≠ '\n' := by
  intro c hc
  rw [intRepr] at hc
  split at hc
  · rcases List.mem_cons.mp hc with rfl | hm
    · exact ⟨by decide, by decide⟩
    · exact ⟨not_isWs_of_isDigitCh (natRepr_all_digits _ c hm),
        ne_nl_of_isDigitCh (natRepr_all_digits _ c hm)⟩
  · exact ⟨not_isWs_of_isDigitCh (natRepr_all_digits _ c hc),
      ne_nl_of_isDigitCh (natRepr_all_digits _ c hc)⟩

theorem mem_of_head?_eq {l : Str} {c : Char} (h : l.head? = some c) : c ∈ l := by
  cases l with
  | nil => cases h
  | cons d t =>
    rw [List.head?_cons, Option.some_inj] at h
    subst h
    exact List.mem_cons_self d t

theorem intRepr_ne_nil (r : Int) : intRepr r ≠ [] := by
  rw [intRepr]
  split
  · simp
  · exact natRepr_ne_nil _

theorem wfToken_intRepr (r : Int) : wfToken (intRepr r) :=
  ⟨intRepr_ne_nil r,
   fun c hc => (intRepr_chars r c (mem_of_head?_eq hc)).1,
   fun c hc => (intRepr_chars r c (mem_of_getLast?_eq hc)).1⟩

/-! Reparsing the individual encoded lines. -/

theorem processLine_event {pc : PartialChunk} {e : Str} (he : wfToken e) :
    processLine pc (str "event: " ++ e) = { pc with event := some e } := by
  rw [processLine,
    if_pos (show (str "event:").isPrefixOf (str "event: " ++ e) = true by
      rw [List.isPrefixOf_iff_prefix,
        show str "event: " ++ e = str "event:" ++ (' ' :: e) from rfl]
      exact List.prefix_append _ _),
    show List.drop 6 (str "event: " ++ e) = ' ' :: e from rfl, trim_space_cons he]

theorem processLine_data {pc : PartialChunk} {l : Str} (hl : trimStart l = l) :
    processLine pc (str "data: " ++ l) = { pc with data := some (dataStep pc.data l) } := by
  rw [processLine,
    if_neg (show ¬ ((str "event:").isPrefixOf (str "data: " ++ l) = true) from
      fun h => Bool.false_ne_true h),
    if_pos (show (str "data:").isPrefixOf (str "data: " ++ l) = true by
      rw [List.isPrefixOf_iff_prefix,
        show str "data: " ++ l = str "data:" ++ (' ' :: l) from rfl]
      exact List.prefix_append _ _),
    show List.drop 5 (str "data: " ++ l) = ' ' :: l from rfl, trimStart_space_cons hl]

theorem processLine_id {pc : PartialChunk} {i : Str} (hi : wfToken i) :
    processLine pc (str "id: " ++ i) = { pc with id := some i } := by
  rw [processLine,
    if_neg (show ¬ ((str "event:").isPrefixOf (str "id: " ++ i) = true) from
      fun h => Bool.false_ne_true h),
    if_neg (show ¬ ((str "data:").isPrefixOf (str "id: " ++ i) = true) from
      fun h => Bool.false_ne_true h),
    if_pos (show (str "id:").isPrefixOf (str "id: " ++ i) = true by
      rw [List.isPrefixOf_iff_prefix,
        show str "id: " ++ i = str "id:" ++ (' ' :: i) from rfl]
      exact List.prefix_append _ _),
    show List.drop 3 (str "id: " ++ i) = ' ' :: i from rfl, trim_space_cons hi]

theorem processLine_retry (pc : PartialChunk) (r : Int) :
    processLine pc (str "retry: " ++ intRepr r) = { pc with retry := some r } := by
  rw [processLine,
    if_neg (show ¬ ((str "event:").isPrefixOf (str "retry: " ++ intRepr r) = true) from
      fun h => Bool.false_ne_true h),
    if_neg (show ¬ ((str "data:").isPrefixOf (str "retry: " ++ intRepr r) = true) from
      fun h => Bool.false_ne_true h),
    if_neg (show ¬ ((str "id:").isPrefixOf (str "retry: " ++ intRepr r) = true) from
      fun h => Bool.false_ne_true h),
    if_pos (show (str "retry:").isPrefixOf (str "retry: " ++ intRepr r) = true by
      rw [List.isPrefixOf_iff_prefix,
        show str "retry: " ++ intRepr r = str "retry:" ++ (' ' :: intRepr r) from rfl]
      exact List.prefix_append _ _),
    show List.drop 6 (str "retry: " ++ intRepr r) = ' ' :: intRepr r from rfl,
    trim_space_cons (wfToken_intRepr r), jsParseInt_intRepr]

theorem fold_data_lines :
    ∀ (ls : List Str), (∀ l ∈ ls, trimStart l = l) → ∀ (pc : PartialChunk),
      (ls.map (fun l => str "data: " ++ l)).foldl processLine pc
        = { pc with data := dataFold pc.data ls } := by
  intro ls
  induction ls with
  | nil => intro _ pc; rfl
  | cons l rest ih =>
    intro hls pc
    rw [List.map_cons, List.foldl_cons,
      processLine_data (hls l (List.mem_cons_self l rest)),
      ih (fun x hx => hls x (List.mem_cons_of_mem l hx))]
    rfl

theorem mem_joinSep {sep : Str} :
    ∀ {lines : List Str} {l : Str}, l ∈ lines → ∀ {c : Char}, c ∈ l →
      c ∈ joinSep sep lines := by
  intro lines
  induction lines with
  | nil => intro l hl; cases hl
  | cons p rest ih =>
    intro l hl c hc
    cases rest with
    | nil =>
      rcases List.mem_cons.mp hl with rfl | hl'
      · exact hc
      · cases hl'
    | cons q t =>
      rw [show joinSep sep (p :: q :: t) = p ++ (sep ++ joinSep sep (q :: t)) by
            rw [joinSep]; simp [List.append_assoc]]
      rcases List.mem_cons.mp hl with rfl | hl'
      · exact List.mem_append_left _ hc
      · exact List.mem_append_right _ (List.mem_append_right _ (ih hl' hc))

theorem encLines_no_nl {c : Chunk} (h : wfChunk c) :
    ∀ l ∈ encLines c, '\n' ∉ l := by
  obtain ⟨hev, hid, _, _⟩ := h
  intro l hl
  rw [encLines] at hl
  rcases List.mem_append.mp hl with hl3 | hld
  · rcases List.mem_append.mp hl3 with hl2 | hlr
    · rcases List.mem_append.mp hl2 with hle | hli
      · cases hce : c.event with
        | none => simp only [hce] at hle; cases hle
        | some e =>
          simp only [hce] at hle
          obtain ⟨hwf, hnl⟩ := hev e hce
          rw [if_neg (show ¬ (List.isEmpty e = true) by simpa [List.isEmpty_iff] using hwf.1)] at hle
          rcases List.mem_singleton.mp hle with rfl
          intro hm
          rcases List.mem_append.mp hm with hm' | hm'
          · revert hm'; decide
          · exact hnl hm'
      · cases hci : c.id with
        | none => simp only [hci] at hli; cases hli
        | some i =>
          simp only [hci] at hli
          obtain ⟨hwf, hnl⟩ := hid i hci
          rw [if_neg (show ¬ (List.isEmpty i = true) by simpa [List.isEmpty_iff] using hwf.1)] at hli
          rcases List.mem_singleton.mp hli with rfl
          intro hm
          rcases List.mem_append.mp hm with hm' | hm'
          · revert hm'; decide
          · exact hnl hm'
    · cases hcr : c.retry with
      | none => simp only [hcr] at hlr; cases hlr
      | some r =>
        simp only [hcr] at hlr
        rcases List.mem_singleton.mp hlr with rfl
        intro hm
        rcases List.mem_append.mp hm with hm' | hm'
        · revert hm'; decide
        · exact (intRepr_chars r '\n' hm').2 rfl
  · rw [List.mem_map] at hld
    obtain ⟨w, hw, rfl⟩ := hld
    intro hm
    rcases List.mem_append.mp hm with hm' | hm'
    · revert hm'; decide
    · exact splitCh_no_sep '\n' c.data w hw hm'

/-- Reparsing the encoded block of a well-formed chunk recovers it. -/
theorem parseBlock_enc {c : Chunk} (h : wfChunk c) :
    parseBlock (joinSep ['\n'] (encLines c)) = some c := by
  obtain ⟨hev, hid, hdf, hts⟩ := h
  obtain ⟨w, ws, hsp⟩ : ∃ w ws, splitCh '\n' c.data = w :: ws := by
    cases hs : splitCh '\n' c.data with
    | nil => exact absurd hs (splitCh_ne_nil '\n' c.data)
    | cons w ws => exact ⟨w, ws, rfl⟩
  have hdmem : 'd' ∈ joinSep ['\n'] (encLines c) := by
    refine mem_joinSep (l := str "data: " ++ w) ?_ (List.mem_append_left _ (by decide))
    rw [encLines]
    refine List.mem_append_right _ ?_
    rw [List.mem_map]
    exact ⟨w, hsp ▸ List.mem_cons_self w ws, rfl⟩
  have hblank : ¬ ((trim (joinSep ['\n'] (encLines c))).isEmpty = true) := by
    rw [List.isEmpty_iff]
    exact trim_ne_nil_of_mem hdmem (by decide)
  have hlines : splitCh '\n' (joinSep ['\n'] (encLines c)) = encLines c :=
    splitCh_joinSep _ (encLines_ne_nil c) (encLines_no_nl ⟨hev, hid, hdf, hts⟩)
  rw [parseBlock, if_neg hblank]
  rw [hlines, encLines, List.foldl_append, List.foldl_append, List.foldl_append]
  have hA : (match c.event with
      | some e => if e.isEmpty then [] else [str "event: " ++ e]
      | none => ([] : List Str)).foldl processLine emptyPartial
      = { emptyPartial with event := c.event } := by
    cases hce : c.event with
    | none => rfl
    | some e =>
      obtain ⟨hwf, _⟩ := hev e hce
      have hee : List.isEmpty e = false := by
        cases he' : e with
        | nil => exact absurd he' hwf.1
        | cons x xs => rfl
      simp only [hee, Bool.false_eq_true, if_false, List.foldl_cons, List.foldl_nil]
      exact processLine_event hwf
  rw [hA]
  have hB : (match c.id with
      | some i => if i.isEmpty then [] else [str "id: " ++ i]
      | none => ([] : List Str)).foldl processLine { emptyPartial with event := c.event }
      = { emptyPartial with event := c.event, id := c.id } := by
    cases hci : c.id with
    | none => rfl
    | some i =>
      obtain ⟨hwf, _⟩ := hid i hci
      have hie : List.isEmpty i = false := by
        cases hi' : i with
        | nil => exact absurd hi' hwf.1
        | cons x xs => rfl
      simp only [hie, Bool.false_eq_true, if_false, List.foldl_cons, List.foldl_nil]
      exact processLine_id hwf
  rw [hB]
  have hC : (match c.retry with
      | some r => [str "retry: " ++ intRepr r]
      | none => ([] : List Str)).foldl processLine
        { emptyPartial with event := c.event, id := c.id }
      = { emptyPartial with event := c.event, id := c.id, retry := c.retry } := by
    cases hcr : c.retry with
    | none => rfl
    | some r =>
      simp only [List.foldl_cons, List.foldl_nil]
      exact processLine_retry _ r
  rw [hC]
  rw [fold_data_lines _ hts _,
    show dataFold emptyPartial.data (splitCh '\n' c.data) = some c.data from hdf]

theorem encLines_elem_ne_nil (c : Chunk) : ∀ l ∈ encLines c, l ≠ [] := by
  intro l hl
  rw [encLines] at hl
  rcases List.mem_append.mp hl with hl3 | hld
  · rcases List.mem_append.mp hl3 with hl2 | hlr
    · rcases List.mem_append.mp hl2 with hle | hli
      · cases hce : c.event with
        | none => simp only [hce] at hle; cases hle
        | some e =>
          simp only [hce] at hle
          rcases he : List.isEmpty e with _ | _
          · rw [if_neg (by rw [he]; exact fun hh => Bool.false_ne_true hh)] at hle
            rcases List.mem_singleton.mp hle with rfl
            simp [str]
          · rw [if_pos (by rw [he])] at hle
            cases hle
      · cases hci : c.id with
        | none => simp only [hci] at hli; cases hli
        | some i =>
          simp only [hci] at hli
          rcases hi : List.isEmpty i with _ | _
          · rw [if_neg (by rw [hi]; exact fun hh => Bool.false_ne_true hh)] at hli
            rcases List.mem_singleton.mp hli with rfl
            simp [str]
          · rw [if_pos (by rw [hi])] at hli
            cases hli
    · cases hcr : c.retry with
      | none => simp only [hcr] at hlr; cases hlr
      | some r =>
        simp only [hcr] at hlr
        rcases List.mem_singleton.mp hlr with rfl
        simp [str]
  · rw [List.mem_map] at hld
    obtain ⟨w, _, rfl⟩ := hld
    simp [str]

/-- Encoding a list of well-formed chunks and parsing the concatenation
yields the chunks back. -/
theorem parse_concat : ∀ (cs : List Chunk), (∀ c ∈ cs, wfChunk c) →
    parse ((cs.map encode).flatten) = cs := by
  intro cs
  induction cs with
  | nil => intro _; rfl
  | cons c cs ih =>
    intro h
    have hc := h c (List.mem_cons_self c cs)
    rw [List.map_cons, List.flatten_cons, encode_eq c, parse, List.append_assoc,
      show ['\n', '\n'] ++ (cs.map encode).flatten
        = '\n' :: '\n' :: (cs.map encode).flatten from rfl,
      splitNN_block (encLines_ne_nil c)
        (fun l hl => ⟨encLines_elem_ne_nil c l hl, encLines_no_nl hc l hl⟩) _,
      List.filterMap_cons, parseBlock_enc hc]
    have htail := ih (fun x hx => h x (List.mem_cons_of_mem c hx))
    rw [parse] at htail
    rw [htail]

/-- Which data value (if any) a line contributes in the block scan. -/
def dataValue (line : Str) : Option Str :=
  if (str "event:").isPrefixOf line then none
  else if (str "data:").isPrefixOf line then some (trimStart (line.drop 5))
  else none

theorem dataValue_some {line v : Str} (h : dataValue line = some v) :
    v = trimStart (line.drop 5) := by
  rw [dataValue] at h
  split_ifs at h
  exact (Option.some.inj h).symm

theorem fold_data_track : ∀ (lines : List Str) (pc : PartialChunk),
    (lines.foldl processLine pc).data = dataFold pc.data (lines.filterMap dataValue) := by
  intro lines
  induction lines with
  | nil => intro pc; rfl
  | cons line rest ih =>
    intro pc
    rw [List.foldl_cons, ih, List.filterMap_cons]
    by_cases h1 : (str "event:").isPrefixOf line = true
    · rw [show dataValue line = none by rw [dataValue, if_pos h1],
        show (processLine pc line).data = pc.data by rw [processLine, if_pos h1]]
    · by_cases h2 : (str "data:").isPrefixOf line = true
      · rw [show dataValue line = some (trimStart (line.drop 5)) by
            rw [dataValue, if_neg h1, if_pos h2],
          show (processLine pc line).data
              = some (dataStep pc.data (trimStart (line.drop 5))) by
            rw [processLine, if_neg h1, if_pos h2]]
        rfl
      · by_cases h3 : (str "id:").isPrefixOf line = true
        · rw [show dataValue line = none by rw [dataValue, if_neg h1, if_neg h2],
            show (processLine pc line).data = pc.data by
              rw [processLine, if_neg h1, if_neg h2, if_pos h3]]
        · by_cases h4 : (str "retry:").isPrefixOf line = true
          · rw [show dataValue line = none by rw [dataValue, if_neg h1, if_neg h2],
              show (processLine pc line).data = pc.data by
                rw [processLine, if_neg h1, if_neg h2, if_neg h3, if_pos h4]
                cases jsParseInt (trim (line.drop 6)) <;> rfl]
          · rw [show dataValue line = none by rw [dataValue, if_neg h1, if_neg h2],
              show (processLine pc line).data = pc.data by
                rw [processLine, if_neg h1, if_neg h2, if_neg h3, if_neg h4]]

theorem processLine_event_cases (pc : PartialChunk) (line : Str) :
    (processLine pc line).event = pc.event ∨
      (processLine pc line).event = some (trim (line.drop 6)) := by
  rw [processLine]
  split_ifs
  · right; rfl
  · left; rfl
  · left; rfl
  · left; cases jsParseInt (trim (line.drop 6)) <;> rfl
  · left; rfl

theorem processLine_id_cases (pc : PartialChunk) (line : Str) :
    (processLine pc line).id = pc.id ∨
      (processLine pc line).id = some (trim (line.drop 3)) := by
  rw [processLine]
  split_ifs
  · left; rfl
  · left; rfl
  · right; rfl
  · left; cases jsParseInt (trim (line.drop 6)) <;> rfl
  · left; rfl

theorem fold_event_track : ∀ (lines : List Str) (pc : PartialChunk),
    (∀ l ∈ lines, '\n' ∉ l) →
    ((lines.foldl processLine pc).event = pc.event ∨
      ∃ w, '\n' ∉ w ∧ (lines.foldl processLine pc).event = some (trim w)) := by
  intro lines
  induction lines with
  | nil => intro pc _; left; rfl
  | cons line rest ih =>
    intro pc hnl
    rw [List.foldl_cons]
    rcases ih (processLine pc line) (fun l hl => hnl l (List.mem_cons_of_mem _ hl)) with h | h
    · rcases processLine_event_cases pc line with h' | h'
      · left; rw [h, h']
      · right
        refine ⟨line.drop 6, fun hm => hnl line (List.mem_cons_self line rest)
          (List.mem_of_mem_drop hm), ?_⟩
        rw [h, h']
    · right; exact h

theorem fold_id_track : ∀ (lines : List Str) (pc : PartialChunk),
    (∀ l ∈ lines, '\n' ∉ l) →
    ((lines.foldl processLine pc).id = pc.id ∨
      ∃ w, '\n' ∉ w ∧ (lines.foldl processLine pc).id = some (trim w)) := by
  intro lines
  induction lines with
  | nil => intro pc _; left; rfl
  | cons line rest ih =>
    intro pc hnl
    rw [List.foldl_cons]
    rcases ih (processLine pc line) (fun l hl => hnl l (List.mem_cons_of_mem _ hl)) with h | h
    · rcases processLine_id_cases pc line with h' | h'
      · left; rw [h, h']
      · right
        refine ⟨line.drop 3, fun hm => hnl line (List.mem_cons_self line rest)
          (List.mem_of_mem_drop hm), ?_⟩
        rw [h, h']
    · right; exact h

/-- Every record `parse` produces whose `event` and `id` fields are not the
empty string is well-formed. -/
theorem parse_wf {x : Str} (h : ∀ c ∈ parse x, c.event ≠ some [] ∧ c.id ≠ some []) :
    ∀ c ∈ parse x, wfChunk c := by
  intro c hcmem
  obtain ⟨hene, hine⟩ := h c hcmem
  rw [parse, List.mem_filterMap] at hcmem
  obtain ⟨block, _, hpb⟩ := hcmem
  rw [parseBlock] at hpb
  split_ifs at hpb
  simp only [] at hpb
  have hnl : ∀ l ∈ splitCh '\n' block, '\n' ∉ l :=
    fun l hl => splitCh_no_sep '\n' block l hl
  cases hd : ((splitCh '\n' block).foldl processLine emptyPartial).data with
  | none => rw [hd] at hpb; cases hpb
  | some d =>
    rw [hd] at hpb
    have hceq := Option.some.inj hpb
    subst hceq
    refine ⟨?_, ?_, ?_⟩
    · intro e he
      simp only [] at he
      rcases fold_event_track (splitCh '\n' block) emptyPartial hnl with h' | h'
      · rw [h'] at he
        cases he
      · obtain ⟨w, hw, h'⟩ := h'
        rw [h'] at he
        have het := Option.some.inj he
        subst het
        have hne : trim w ≠ [] := by
          intro hnil
          exact hene (by simp only [] at hene ⊢; rw [h', hnil])
        exact ⟨wfToken_of_trim_ne_nil hne, fun hm => hw (mem_of_mem_trim hm)⟩
    · intro i hi
      simp only [] at hi
      rcases fold_id_track (splitCh '\n' block) emptyPartial hnl with h' | h'
      · rw [h'] at hi
        cases hi
      · obtain ⟨w, hw, h'⟩ := h'
        rw [h'] at hi
        have hit := Option.some.inj hi
        subst hit
        have hne : trim w ≠ [] := by
          intro hnil
          exact hine (by simp only [] at hine ⊢; rw [h', hnil])
        exact ⟨wfToken_of_trim_ne_nil hne, fun hm => hw (mem_of_mem_trim hm)⟩
    · have hdf : dataFold none ((splitCh '\n' block).filterMap dataValue) = some d := by
        rw [← hd, fold_data_track]
        rfl
      have hvs : ∀ v ∈ (splitCh '\n' block).filterMap dataValue,
          trimStart v = v ∧ '\n' ∉ v := by
        intro v hv
        rw [List.mem_filterMap] at hv
        obtain ⟨l, hl, hdv⟩ := hv
        have hveq := dataValue_some hdv
        subst hveq
        exact ⟨trimStart_idem _,
          fun hm => hnl l hl (List.mem_of_mem_drop (mem_of_mem_trimStart hm))⟩
      exact dataFold_wf hvs hdf

/-! ### Association-list model of JS `Map`

JS `Map.set` replaces in place or appends; `Map.delete` removes the entry;
keys stay unique because every map is built through these operations. -/

/-- `map.get(k)`. -/
def mget {V : Type} (k : Str) : List (Str × V) → Option V
  | [] => none
  | (k', v) :: t => if k' = k then some v else mget k t

/-- `map.set(k, v)`. -/
def mset {V : Type} (k : Str) (v : V) : List (Str × V) → List (Str × V)
  | [] => [(k, v)]
  | (k', v') :: t => if k' = k then (k', v) :: t else (k', v') :: mset k v t

/-- `map.delete(k)`. -/
def mdel {V : Type} (k : Str) : List (Str × V) → List (Str × V)
  | [] => []
  | (k', v') :: t => if k' = k then t else (k', v') :: mdel k t

/-- The keys of an association list are pairwise distinct. -/
def keysNodup {V : Type} (l : List (Str × V)) : Prop := (l.map Prod.fst).Nodup

theorem mget_mset_self {V : Type} (k : Str) (v : V) :
    ∀ l, mget k (mset k v l) = some v := by
  intro l
  induction l with
  | nil => simp [mget, mset]
  | cons kv t ih =>
    obtain ⟨k', v'⟩ := kv
    rw [mset]
    by_cases h : k' = k
    · rw [if_pos h, mget, if_pos h]
    · rw [if_neg h, mget, if_neg h, ih]

theorem mget_mset_ne {V : Type} {k k' : Str} (h : k' ≠ k) (v : V) :
    ∀ l, mget k' (mset k v l) = mget k' l := by
  intro l
  induction l with
  | nil => simp [mget, mset, if_neg (Ne.symm h)]
  | cons kv t ih =>
    obtain ⟨k'', v''⟩ := kv
    rw [mset]
    by_cases h2 : k'' = k
    · rw [if_pos h2, mget, mget, if_neg (h2 ▸ fun hh => h (hh ▸ rfl))]
      rw [if_neg (by rw [h2]; exact fun hh => h (hh ▸ rfl))]
    · rw [if_neg h2, mget, mget, ih]

theorem mget_mdel_ne {V : Type} {k k' : Str} (h : k' ≠ k) :
    ∀ l : List (Str × V), mget k' (mdel k l) = mget k' l := by
  intro l
  induction l with
  | nil => rfl
  | cons kv t ih =>
    obtain ⟨k'', v''⟩ := kv
    rw [mdel]
    by_cases h2 : k'' = k
    · rw [if_pos h2, mget, if_neg (by rw [h2]; exact fun hh => h (hh ▸ rfl))]
    · rw [if_neg h2, mget, mget, ih]

theorem mget_eq_none_of_not_mem_keys {V : Type} {k : Str} :
    ∀ {l : List (Str × V)}, k ∉ l.map Prod.fst → mget k l = none := by
  intro l
  induction l with
  | nil => intro _; rfl
  | cons kv t ih =>
    obtain ⟨k', v'⟩ := kv
    intro h
    rw [List.map_cons, List.mem_cons] at h
    push_neg at h
    rw [mget, if_neg (fun hh => h.1 hh.symm)]
    exact ih h.2

theorem mget_mdel_self {V : Type} (k : Str) :
    ∀ l : List (Str × V), keysNodup l → mget k (mdel k l) = none := by
  intro l
  induction l with
  | nil => intro _; rfl
  | cons kv t ih =>
    obtain ⟨k', v'⟩ := kv
    intro hnd
    rw [keysNodup, List.map_cons, List.nodup_cons] at hnd
    rw [mdel]
    by_cases h : k' = k
    · rw [if_pos h]
      exact mget_eq_none_of_not_mem_keys (h ▸ hnd.1)
    · rw [if_neg h, mget, if_neg h]
      exact ih hnd.2

theorem keys_mset_sub {V : Type} (k : Str) (v : V) :
    ∀ l : List (Str × V), ∀ k', k' ∈ (mset k v l).map Prod.fst → k' = k ∨ k' ∈ l.map Prod.fst := by
  intro l
  induction l with
  | nil =>
    intro k' h
    simp [mset] at h
    exact Or.inl h
  | cons kv t ih =>
    obtain ⟨k'', v''⟩ := kv
    intro k' h
    rw [mset] at h
    by_cases h2 : k'' = k
    · rw [if_pos h2] at h
      simp only [List.map_cons, List.mem_cons] at h
      rcases h with rfl | h
      · exact Or.inr (List.mem_cons_self _ _)
      · exact Or.inr (List.mem_cons_of_mem _ h)
    · rw [if_neg h2] at h
      simp only [List.map_cons, List.mem_cons] at h
      rcases h with rfl | h
      · exact Or.inr (List.mem_cons_self _ _)
      · rcases ih k' h with h3 | h3
        · exact Or.inl h3
        · exact Or.inr (List.mem_cons_of_mem _ h3)

theorem keysNodup_mset {V : Type} (k : Str) (v : V) :
    ∀ l : List (Str × V), keysNodup l → keysNodup (mset k v l) := by
  intro l
  induction l with
  | nil => intro _; simp [mset, keysNodup]
  | cons kv t ih =>
    obtain ⟨k', v'⟩ := kv
    intro hnd
    rw [keysNodup, List.map_cons, List.nodup_cons] at hnd
    rw [mset]
    by_cases h : k' = k
    · rw [if_pos h, keysNodup, List.map_cons, List.nodup_cons]
      exact hnd
    · rw [if_neg h, keysNodup, List.map_cons, List.nodup_cons]
      refine ⟨fun hm => ?_, ih hnd.2⟩
      rcases keys_mset_sub k v t k' hm with rfl | hm2
      · exact h rfl
      · exact hnd.1 hm2

theorem keys_mdel_sub {V : Type} (k : Str) :
    ∀ (l : List (Str × V)) (k' : Str), k' ∈ (mdel k l).map Prod.fst → k' ∈ l.map Prod.fst := by
  intro l
  induction l with
  | nil => intro k' h; cases h
  | cons kv t ih =>
    obtain ⟨k2, v2⟩ := kv
    intro k' h
    rw [mdel] at h
    by_cases h2 : k2 = k
    · rw [if_pos h2] at h
      exact List.mem_cons_of_mem _ h
    · rw [if_neg h2] at h
      simp only [List.map_cons, List.mem_cons] at h ⊢
      rcases h with rfl | h
      · exact Or.inl rfl
      · exact Or.inr (ih k' h)

theorem keysNodup_mdel {V : Type} (k : Str) :
    ∀ l : List (Str × V), keysNodup l → keysNodup (mdel k l) := by
  intro l
  induction l with
  | nil => intro _; simp [mdel, keysNodup]
  | cons kv t ih =>
    obtain ⟨k', v'⟩ := kv
    intro hnd
    rw [keysNodup, List.map_cons, List.nodup_cons] at hnd
    rw [mdel]
    by_cases h : k' = k
    · rw [if_pos h]; exact hnd.2
    · rw [if_neg h, keysNodup, List.map_cons, List.nodup_cons]
      exact ⟨fun hm => hnd.1 (keys_mdel_sub k t k' hm), ih hnd.2⟩

/-! ### Cooldown tracker (`src/routing/cooldown.ts`)

State per `(pool, account)` key `"<pool>:<account>"`; times are absolute
epoch milliseconds, passed in as `now` (the source reads `Date.now()`). -/

/-- The four quota pools. -/
inductive QuotaPool where
  | anthropic
  | codex
  | gemini
  | antigravity
deriving DecidableEq, Repr

/-- The pool's name as it appears in map keys. -/
def QuotaPool.toStr : QuotaPool → Str
  | .anthropic => str "anthropic"
  | .codex => str "codex"
  | .gemini => str "gemini"
  | .antigravity => str "antigravity"

/-- The string key `"<pool>:<account>"` used by both the cooldown map and
the affinity counts index. -/
def poolKey (pool : QuotaPool) (account : Nat) : Str :=
  pool.toStr ++ ':' :: natRepr account

structure CooldownEntry where
  /-- The source field `until` (a Lean keyword, hence the underscore). -/
  until_ : Int
  exhausted : Bool
  consecutive429 : Nat
deriving DecidableEq, Repr

abbrev CooldownState := List (Str × CooldownEntry)

def FORBIDDEN_COOLDOWN_MS : Int := 24 * 3600000
def EXHAUSTED_COOLDOWN_MS : Int := 2 * 3600000
def EXHAUSTED_THRESHOLD_S : Int := 300
def EXHAUSTED_CONSECUTIVE : Nat := 3
def DEFAULT_BURST_S : Int := 30

/-- `getEntry`: lazily evicts an entry whose deadline has passed. -/
def getEntry (now : Int) (pool : QuotaPool) (account : Nat) (s : CooldownState) :
    Option CooldownEntry × CooldownState :=
  let k := poolKey pool account
  match mget k s with
  | none => (none, s)
  | some entry =>
    if now ≥ entry.until_ then (none, mdel k s) else (some entry, s)

def isCoolingDown (now : Int) (pool : QuotaPool) (account : Nat) (s : CooldownState) :
    Bool × CooldownState :=
  let r := getEntry now pool account s
  (r.1.isSome, r.2)

def isExhausted (now : Int) (pool : QuotaPool) (account : Nat) (s : CooldownState) :
    Bool × CooldownState :=
  let r := getEntry now pool account s
  ((r.1.map CooldownEntry.exhausted).getD false, r.2)

/-- `record429` from the source, translated clause by clause. -/
def record429 (now : Int) (pool : QuotaPool) (account : Nat)
    (retryAfterSeconds : Option Int) (s : CooldownState) : CooldownState :=
  let k := poolKey pool account
  let entry0 := (mget k s).getD { until_ := 0, exhausted := false, consecutive429 := 0 }
  let entry1 := { entry0 with consecutive429 := entry0.consecutive429 + 1 }
  let retryAfter := retryAfterSeconds.getD DEFAULT_BURST_S
  let entry2 :=
    if retryAfter > EXHAUSTED_THRESHOLD_S ∨ entry1.consecutive429 ≥ EXHAUSTED_CONSECUTIVE then
      { entry1 with exhausted := true, until_ := now + EXHAUSTED_COOLDOWN_MS }
    else
      { entry1 with until_ := now + retryAfter * 1000 }
  mset k entry2 s

def record403 (now : Int) (pool : QuotaPool) (account : Nat) (s : CooldownState) :
    CooldownState :=
  mset (poolKey pool account)
    { until_ := now + FORBIDDEN_COOLDOWN_MS, exhausted := true, consecutive429 := 0 } s

def recordSuccess (pool : QuotaPool) (account : Nat) (s : CooldownState) : CooldownState :=
  mdel (poolKey pool account) s

/-- `parseRetryAfter(header)`: integer seconds via JS `Number`, else an
HTTP date via `Date.parse`; both built-ins are passed in as parameters. -/
def parseRetryAfter (jsNumber dateParse : Str → Option Int) (now : Int)
    (header : Option Str) : Option Int :=
  match header with
  | none => none
  | some h =>
    match jsNumber h with
    | some seconds => some seconds
    | none =>
      match dateParse h with
      | some date => some (max 0 ((date - now + 999) / 1000))
      | none => none

/-! ### Affinity store (`src/routing/affinity.ts`)

Primary map keyed `"<threadId>\0<ampProvider>"`, secondary counts index
keyed `"<pool>:<account>"`. -/

structure AffinityEntry where
  pool : QuotaPool
  account : Nat
  assignedAt : Int
deriving DecidableEq, Repr

structure AffinityState where
  map : List (Str × AffinityEntry)
  counts : List (Str × Int)
deriving DecidableEq, Repr

def TTL_MS : Int := 2 * 3600000

/-- `"<threadId>\0<ampProvider>"`. -/
def affKey (threadId ampProvider : Str) : Str := threadId ++ '\x00' :: ampProvider

def emptyAffinity : AffinityState := ⟨[], []⟩

def incCount (pool : QuotaPool) (account : Nat) (s : AffinityState) : AffinityState :=
  let k := poolKey pool account
  { s with counts := mset k ((mget k s.counts).getD 0 + 1) s.counts }

def decCount (pool : QuotaPool) (account : Nat) (s : AffinityState) : AffinityState :=
  let k := poolKey pool account
  let v := (mget k s.counts).getD 0 - 1
  if v ≤ 0 then { s with counts := mdel k s.counts }
  else { s with counts := mset k v s.counts }

def removeExpired (k : Str) (entry : AffinityEntry) (s : AffinityState) : AffinityState :=
  decCount entry.pool entry.account { s with map := mdel k s.map }

/-- `peek`: read without touching; expired entries are evicted. -/
def affPeek (now : Int) (threadId ampProvider : Str) (s : AffinityState) :
    Option AffinityEntry × AffinityState :=
  let k := affKey threadId ampProvider
  match mget k s.map with
  | none => (none, s)
  | some entry =>
    if now - entry.assignedAt > TTL_MS then (none, removeExpired k entry s)
    else (some entry, s)

/-- `get`: read and touch (`entry.assignedAt = Date.now()` mutates the
entry held in the map). -/
def affGet (now : Int) (threadId ampProvider : Str) (s : AffinityState) :
    Option AffinityEntry × AffinityState :=
  match affPeek now threadId ampProvider s with
  | (none, s') => (none, s')
  | (some entry, s') =>
    let touched := { entry with assignedAt := now }
    (some touched, { s' with map := mset (affKey threadId ampProvider) touched s'.map })

def affSet (now : Int) (threadId ampProvider : Str) (pool : QuotaPool) (account : Nat)
    (s : AffinityState) : AffinityState :=
  let k := affKey threadId ampProvider
  let s' :=
    match mget k s.map with
    | some existing =>
      if existing.pool ≠ pool ∨ existing.account ≠ account then
        incCount pool account (decCount existing.pool existing.account s)
      else s
    | none => incCount pool account s
  { s' with map := mset k { pool := pool, account := account, assignedAt := now } s'.map }

def affClear (threadId ampProvider : Str) (s : AffinityState) : AffinityState :=
  let k := affKey threadId ampProvider
  match mget k s.map with
  | some existing =>
    { decCount existing.pool existing.account s with map := mdel k s.map }
  | none => s

def activeCount (pool : QuotaPool) (account : Nat) (s : AffinityState) : Int :=
  (mget (poolKey pool account) s.counts).getD 0

/-- One sweep of the periodic cleanup timer. -/
def affCleanupGo (now : Int) : List (Str × AffinityEntry) → AffinityState → AffinityState
  | [], acc => acc
  | (k, entry) :: rest, acc =>
    affCleanupGo now rest
      (if now - entry.assignedAt > TTL_MS then removeExpired k entry acc else acc)

def affCleanup (now : Int) (s : AffinityState) : AffinityState := affCleanupGo now s.map s

/-- The states of the affinity store reachable through its public
operations, at arbitrary times. -/
inductive AffReachable : AffinityState → Prop where
  | empty : AffReachable emptyAffinity
  | set (now : Int) (tid prov : Str) (pool : QuotaPool) (account : Nat) {s : AffinityState} :
      AffReachable s → AffReachable (affSet now tid prov pool account s)
  | clear (tid prov : Str) {s : AffinityState} :
      AffReachable s → AffReachable (affClear tid prov s)
  | get (now : Int) (tid prov : Str) {s : AffinityState} :
      AffReachable s → AffReachable (affGet now tid prov s).2
  | peek (now : Int) (tid prov : Str) {s : AffinityState} :
      AffReachable s → AffReachable (affPeek now tid prov s).2
  | cleanup (now : Int) {s : AffinityState} :
      AffReachable s → AffReachable (affCleanup now s)

theorem poolKey_take4 (p : QuotaPool) (a : Nat) :
    List.take 4 (poolKey p a) = List.take 4 p.toStr := by
  cases p <;> rfl

theorem natRepr_inj {x y : Nat} (h : natRepr x = natRepr y) : x = y := by
  have h2 := congrArg natFromDigits h
  rwa [natFromDigits_natRepr, natFromDigits_natRepr] at h2

theorem poolKey_inj {p p' : QuotaPool} {a a' : Nat} (h : poolKey p a = poolKey p' a') :
    p = p' ∧ a = a' := by
  have hp : p = p' := by
    by_contra hne
    have h4 := congrArg (List.take 4) h
    rw [poolKey_take4, poolKey_take4] at h4
    cases p <;> cases p' <;> first | (exact hne rfl) | (exact absurd h4 (by decide))
  subst hp
  refine ⟨rfl, ?_⟩
  rw [poolKey, poolKey] at h
  have htail := List.append_cancel_left h
  injection htail with _ h2
  exact natRepr_inj h2

/-- How many entries of the primary map are pinned to the pair whose
counts key is `pk`. -/
def pinCount (pk : Str) (m : List (Str × AffinityEntry)) : Int :=
  ((m.filter (fun kv => decide (poolKey kv.2.pool kv.2.account = pk))).length : Int)

/-- The internal consistency of an affinity state: unique keys on both
maps, and the counts index agreeing with the primary map. -/
def affInv (s : AffinityState) : Prop :=
  keysNodup s.map ∧ keysNodup s.counts ∧
    ∀ pk : Str, (mget pk s.counts).getD 0 = pinCount pk s.map

theorem pinCount_nil (pk : Str) : pinCount pk [] = 0 := rfl

theorem pinCount_cons (pk k' : Str) (e' : AffinityEntry) (m : List (Str × AffinityEntry)) :
    pinCount pk ((k', e') :: m)
      = pinCount pk m + (if poolKey e'.pool e'.account = pk then 1 else 0) := by
  by_cases h : poolKey e'.pool e'.account = pk
  · simp only [pinCount, List.filter_cons, h, if_pos rfl, List.length_cons]
    simp
  · simp only [pinCount, List.filter_cons, decide_eq_true_eq, if_neg h, if_false]
    simp

theorem pinCount_nonneg (pk : Str) (m : List (Str × AffinityEntry)) : 0 ≤ pinCount pk m := by
  rw [pinCount]
  positivity

theorem pinCount_mset_new {pk k : Str} {e : AffinityEntry} :
    ∀ {m}, mget k m = none →
      pinCount pk (mset k e m)
        = pinCount pk m + (if poolKey e.pool e.account = pk then 1 else 0) := by
  intro m
  induction m with
  | nil =>
    intro _
    rw [show mset k e [] = [(k, e)] from rfl, pinCount_cons, pinCount_nil]
  | cons kv t ih =>
    obtain ⟨k', e'⟩ := kv
    intro hg
    rw [mget] at hg
    by_cases h : k' = k
    · rw [if_pos h] at hg
      cases hg
    · rw [if_neg h] at hg
      rw [mset, if_neg h, pinCount_cons, pinCount_cons, ih hg]
      ring

theorem pinCount_mset_replace {pk k : Str} {e e' : AffinityEntry} :
    ∀ {m}, mget k m = some e' →
      pinCount pk (mset k e m) + (if poolKey e'.pool e'.account = pk then 1 else 0)
        = pinCount pk m + (if poolKey e.pool e.account = pk then 1 else 0) := by
  intro m
  induction m with
  | nil => intro hg; cases hg
  | cons kv t ih =>
    obtain ⟨k'', e''⟩ := kv
    intro hg
    rw [mget] at hg
    by_cases h : k'' = k
    · rw [if_pos h] at hg
      have he : e'' = e' := Option.some.inj hg
      subst he
      rw [mset, if_pos h, pinCount_cons, pinCount_cons]
      ring
    · rw [if_neg h] at hg
      rw [mset, if_neg h, pinCount_cons, pinCount_cons]
      have := ih hg
      omega

theorem pinCount_mdel {pk k : Str} {e : AffinityEntry} :
    ∀ {m}, mget k m = some e →
      pinCount pk (mdel k m) + (if poolKey e.pool e.account = pk then 1 else 0)
        = pinCount pk m := by
  intro m
  induction m with
  | nil => intro hg; cases hg
  | cons kv t ih =>
    obtain ⟨k'', e''⟩ := kv
    intro hg
    rw [mget] at hg
    by_cases h : k'' = k
    · rw [if_pos h] at hg
      have he : e'' = e := Option.some.inj hg
      subst he
      rw [mdel, if_pos h, pinCount_cons]
    · rw [if_neg h] at hg
      rw [mdel, if_neg h, pinCount_cons, pinCount_cons]
      have := ih hg
      omega

theorem mget_getD_incCount (p : QuotaPool) (a : Nat) (pk : Str) (s : AffinityState) :
    (mget pk (incCount p a s).counts).getD 0
      = (mget pk s.counts).getD 0 + (if poolKey p a = pk then 1 else 0) := by
  rw [incCount]
  by_cases h : pk = poolKey p a
  · rw [h, mget_mset_self, if_pos rfl]
    rfl
  · rw [mget_mset_ne h, if_neg (fun hh => h hh.symm)]
    ring

theorem mget_getD_decCount (p : QuotaPool) (a : Nat) (pk : Str) (s : AffinityState)
    (hnd : keysNodup s.counts) :
    (mget pk (decCount p a s).counts).getD 0
      = if poolKey p a = pk then max 0 ((mget pk s.counts).getD 0 - 1)
        else (mget pk s.counts).getD 0 := by
  rw [decCount]
  by_cases h : pk = poolKey p a
  · rw [← h, if_pos rfl]
    by_cases hv : (mget pk s.counts).getD 0 - 1 ≤ 0
    · rw [if_pos hv]
      simp only [mget_mdel_self pk s.counts hnd, Option.getD_none]
      omega
    · rw [if_neg hv]
      simp only [mget_mset_self, Option.getD_some]
      omega
  · rw [if_neg (fun hh => h (Eq.symm hh))]
    by_cases hv : (mget (poolKey p a) s.counts).getD 0 - 1 ≤ 0
    · rw [if_pos hv]
      simp only [mget_mdel_ne h]
    · rw [if_neg hv]
      simp only [mget_mset_ne h]

theorem counts_incCount (p : QuotaPool) (a : Nat) (s : AffinityState)
    (hnd : keysNodup s.counts) : keysNodup (incCount p a s).counts :=
  keysNodup_mset _ _ _ hnd

theorem counts_decCount (p : QuotaPool) (a : Nat) (s : AffinityState)
    (hnd : keysNodup s.counts) : keysNodup (decCount p a s).counts := by
  rw [decCount]
  by_cases hv : (mget (poolKey p a) s.counts).getD 0 - 1 ≤ 0
  · rw [if_pos hv]
    exact keysNodup_mdel _ _ hnd
  · rw [if_neg hv]
    exact keysNodup_mset _ _ _ hnd

theorem map_incCount (p : QuotaPool) (a : Nat) (s : AffinityState) :
    (incCount p a s).map = s.map := rfl

theorem map_decCount (p : QuotaPool) (a : Nat) (s : AffinityState) :
    (decCount p a s).map = s.map := by
  rw [decCount]
  by_cases hv : (mget (poolKey p a) s.counts).getD 0 - 1 ≤ 0
  · rw [if_pos hv]
  · rw [if_neg hv]

/-- Removing a present entry and decrementing its count preserves the
invariant. -/
theorem affInv_del_dec {s : AffinityState} {k : Str} {e : AffinityEntry}
    (h : affInv s) (hget : mget k s.map = some e) :
    affInv ⟨mdel k s.map, (decCount e.pool e.account s).counts⟩ := by
  obtain ⟨hm, hc, hcnt⟩ := h
  refine ⟨keysNodup_mdel _ _ hm, counts_decCount _ _ _ hc, ?_⟩
  intro pk
  have hdel := @pinCount_mdel pk _ _ _ hget
  have hdec := mget_getD_decCount e.pool e.account pk s hc
  by_cases hk : poolKey e.pool e.account = pk
  · rw [if_pos hk] at hdel hdec
    have hge : 1 ≤ pinCount pk s.map := by
      have := pinCount_nonneg pk (mdel k s.map)
      omega
    rw [show (⟨mdel k s.map, (decCount e.pool e.account s).counts⟩ : AffinityState).counts
        = (decCount e.pool e.account s).counts from rfl, hdec, hcnt pk]
    simp only []
    omega
  · rw [if_neg hk] at hdel hdec
    rw [show (⟨mdel k s.map, (decCount e.pool e.account s).counts⟩ : AffinityState).counts
        = (decCount e.pool e.account s).counts from rfl, hdec, hcnt pk]
    simp only []
    omega

theorem removeExpired_eq (k : Str) (e : AffinityEntry) (s : AffinityState) :
    removeExpired k e s = ⟨mdel k s.map, (decCount e.pool e.account s).counts⟩ := by
  rw [removeExpired, decCount, decCount]
  by_cases hv : (mget (poolKey e.pool e.account) s.counts).getD 0 - 1 ≤ 0
  · rw [if_pos hv, if_pos hv]
  · rw [if_neg hv, if_neg hv]

theorem affInv_removeExpired {s : AffinityState} {k : Str} {e : AffinityEntry}
    (h : affInv s) (hget : mget k s.map = some e) : affInv (removeExpired k e s) := by
  rw [removeExpired_eq]
  exact affInv_del_dec h hget

theorem affInv_affSet (now : Int) (tid prov : Str) (pool : QuotaPool) (account : Nat)
    {s : AffinityState} (h : affInv s) : affInv (affSet now tid prov pool account s) := by
  obtain ⟨hm, hc, hcnt⟩ := h
  rw [affSet]
  cases hget : mget (affKey tid prov) s.map with
  | none =>
    refine ⟨keysNodup_mset _ _ _ hm, counts_incCount _ _ _ hc, ?_⟩
    intro pk
    simp only [map_incCount]
    rw [mget_getD_incCount, hcnt pk, pinCount_mset_new (m := s.map) hget]
  | some existing =>
    simp only []
    by_cases hdiff : existing.pool ≠ pool ∨ existing.account ≠ account
    · rw [if_pos hdiff]
      have hkne : poolKey existing.pool existing.account ≠ poolKey pool account := by
        intro heq
        obtain ⟨h1, h2⟩ := poolKey_inj heq
        rcases hdiff with hd | hd
        · exact hd h1
        · exact hd h2
      have hmap2 : (incCount pool account (decCount existing.pool existing.account s)).map
          = s.map := by
        rw [map_incCount, map_decCount]
      refine ⟨?_, ?_, ?_⟩
      · simp only []
        rw [hmap2]
        exact keysNodup_mset _ _ _ hm
      · exact counts_incCount _ _ _ (counts_decCount _ _ _ hc)
      · intro pk
        simp only []
        rw [hmap2]
        have hrep := @pinCount_mset_replace pk _
          { pool := pool, account := account, assignedAt := now } _ _ hget
        simp only [] at hrep
        have hge : poolKey existing.pool existing.account = pk → 1 ≤ pinCount pk s.map := by
          intro hk
          have hdel := @pinCount_mdel pk _ _ _ hget
          rw [if_pos hk] at hdel
          have := pinCount_nonneg pk (mdel (affKey tid prov) s.map)
          omega
        rw [mget_getD_incCount, mget_getD_decCount existing.pool existing.account pk s hc,
          hcnt pk]
        by_cases hk1 : poolKey existing.pool existing.account = pk
        · have hk2 : ¬ poolKey pool account = pk := fun hh => hkne (hk1 ▸ hh.symm ▸ rfl)
          rw [if_pos hk1, if_neg hk2]
          rw [if_pos hk1, if_neg hk2] at hrep
          have h1 := hge hk1
          rw [show (0 : Int) ⊔ (pinCount pk s.map - 1) = pinCount pk s.map - 1 from
            max_eq_right (by omega)]
          omega
        · rw [if_neg hk1]
          rw [if_neg hk1] at hrep
          by_cases hk2 : poolKey pool account = pk
          · rw [if_pos hk2]
            rw [if_pos hk2] at hrep
            omega
          · rw [if_neg hk2]
            rw [if_neg hk2] at hrep
            omega
    · rw [if_neg hdiff]
      push_neg at hdiff
      obtain ⟨hp, ha⟩ := hdiff
      refine ⟨keysNodup_mset _ _ _ hm, hc, ?_⟩
      intro pk
      simp only []
      have hrep := @pinCount_mset_replace pk _
        { pool := pool, account := account, assignedAt := now } _ _ hget
      simp only [hp, ha] at hrep
      rw [hcnt pk]
      omega

theorem affClear_eq (tid prov : Str) (s : AffinityState) :
    affClear tid prov s
      = match mget (affKey tid prov) s.map with
        | some existing => ⟨mdel (affKey tid prov) s.map,
            (decCount existing.pool existing.account s).counts⟩
        | none => s := by
  rw [affClear]

theorem affInv_affClear (tid prov : Str) {s : AffinityState} (h : affInv s) :
    affInv (affClear tid prov s) := by
  rw [affClear_eq]
  cases hget : mget (affKey tid prov) s.map with
  | none => exact h
  | some existing => exact affInv_del_dec h hget

theorem affInv_affPeek (now : Int) (tid prov : Str) {s : AffinityState} (h : affInv s) :
    affInv (affPeek now tid prov s).2 := by
  rw [affPeek]
  cases hget : mget (affKey tid prov) s.map with
  | none => exact h
  | some entry =>
    simp only []
    by_cases hexp : now - entry.assignedAt > TTL_MS
    · rw [if_pos hexp]
      exact affInv_removeExpired h hget
    · rw [if_neg hexp]
      exact h

theorem affInv_affGet (now : Int) (tid prov : Str) {s : AffinityState} (h : affInv s) :
    affInv (affGet now tid prov s).2 := by
  rw [affGet]
  split
  next s' heq =>
    have hpk := affInv_affPeek now tid prov h
    rw [heq] at hpk
    exact hpk
  next entry s' heq =>
    simp only []
    rw [affPeek] at heq
    cases hget : mget (affKey tid prov) s.map with
    | none =>
      rw [hget] at heq
      cases heq
    | some e0 =>
      rw [hget] at heq
      simp only [] at heq
      by_cases hexp : now - e0.assignedAt > TTL_MS
      · rw [if_pos hexp] at heq
        cases heq
      · rw [if_neg hexp] at heq
        injection heq with h1 h2
        have he : e0 = entry := Option.some.inj h1
        subst he
        subst h2
        obtain ⟨hm, hc, hcnt⟩ := h
        refine ⟨keysNodup_mset _ _ _ hm, hc, ?_⟩
        intro pk
        simp only []
        have hrep := @pinCount_mset_replace pk _ { e0 with assignedAt := now } _ _ hget
        simp only [] at hrep
        rw [hcnt pk]
        omega

theorem mget_of_mem_nodup {V : Type} :
    ∀ {l : List (Str × V)}, keysNodup l → ∀ kv ∈ l, mget kv.1 l = some kv.2 := by
  intro l
  induction l with
  | nil => intro _ kv hkv; cases hkv
  | cons kv0 t ih =>
    obtain ⟨k0, v0⟩ := kv0
    intro hnd kv hkv
    rw [keysNodup, List.map_cons, List.nodup_cons] at hnd
    rcases List.mem_cons.mp hkv with rfl | hm
    · rw [mget, if_pos rfl]
    · rw [mget]
      have hne : k0 ≠ kv.1 := by
        intro hh
        apply hnd.1
        rw [hh]
        exact List.mem_map.mpr ⟨kv, hm, rfl⟩
      rw [if_neg hne]
      exact ih hnd.2 kv hm

theorem affInv_cleanupGo (now : Int) :
    ∀ (items : List (Str × AffinityEntry)) (acc : AffinityState),
      affInv acc → (items.map Prod.fst).Nodup →
      (∀ kv ∈ items, mget kv.1 acc.map = some kv.2) →
      affInv (affCleanupGo now items acc) := by
  intro items
  induction items with
  | nil => intro acc h _ _; exact h
  | cons kv rest ih =>
    obtain ⟨k, e⟩ := kv
    intro acc h hnd hmem
    rw [List.map_cons, List.nodup_cons] at hnd
    rw [affCleanupGo]
    by_cases hexp : now - e.assignedAt > TTL_MS
    · rw [if_pos hexp]
      have hk : mget k acc.map = some e := hmem (k, e) (List.mem_cons_self _ _)
      refine ih _ (affInv_removeExpired h hk) hnd.2 ?_
      intro kv2 hkv2
      have hne : kv2.1 ≠ k := by
        intro hh
        apply hnd.1
        rw [← hh]
        exact List.mem_map.mpr ⟨kv2, hkv2, rfl⟩
      rw [removeExpired_eq]
      rw [show (⟨mdel k acc.map, (decCount e.pool e.account acc).counts⟩ : AffinityState).map
          = mdel k acc.map from rfl, mget_mdel_ne hne]
      exact hmem kv2 (List.mem_cons_of_mem _ hkv2)
    · rw [if_neg hexp]
      exact ih _ h hnd.2 (fun kv2 hkv2 => hmem kv2 (List.mem_cons_of_mem _ hkv2))

theorem affInv_affCleanup (now : Int) {s : AffinityState} (h : affInv s) :
    affInv (affCleanup now s) :=
  affInv_cleanupGo now s.map s h h.1 (mget_of_mem_nodup h.1)

/-- Every reachable affinity state satisfies the internal invariant. -/
theorem affInv_reachable {s : AffinityState} (h : AffReachable s) : affInv s := by
  induction h with
  | empty =>
    refine ⟨List.nodup_nil, List.nodup_nil, fun pk => rfl⟩
  | set now tid prov pool account _ ih => exact affInv_affSet now tid prov pool account ih
  | clear tid prov _ ih => exact affInv_affClear tid prov ih
  | get now tid prov _ ih => exact affInv_affGet now tid prov ih
  | peek now tid prov _ ih => exact affInv_affPeek now tid prov ih
  | cleanup now _ ih => exact affInv_affCleanup now ih

/-- The sum of all values of the counts index. -/
def countsSum (s : AffinityState) : Int := (s.counts.map Prod.snd).sum

theorem mget_mem {V : Type} {k : Str} {v : V} :
    ∀ {l : List (Str × V)}, mget k l = some v → (k, v) ∈ l := by
  intro l
  induction l with
  | nil => intro h; cases h
  | cons kv t ih =>
    obtain ⟨k', v'⟩ := kv
    intro h
    rw [mget] at h
    by_cases hk : k' = k
    · rw [if_pos hk] at h
      have := Option.some.inj h
      subst this
      subst hk
      exact List.mem_cons_self _ _
    · rw [if_neg hk] at h
      exact List.mem_cons_of_mem _ (ih h)

theorem pinCount_pos_of_mem {k0 : Str} {e : AffinityEntry} :
    ∀ {m : List (Str × AffinityEntry)}, (k0, e) ∈ m →
      1 ≤ pinCount (poolKey e.pool e.account) m := by
  intro m
  induction m with
  | nil => intro h; cases h
  | cons kv t ih =>
    obtain ⟨k', e'⟩ := kv
    intro h
    rw [pinCount_cons]
    rcases List.mem_cons.mp h with heq | hm
    · injection heq with _ h2
      subst h2
      rw [if_pos rfl]
      have := pinCount_nonneg (poolKey e.pool e.account) t
      omega
    · have := ih hm
      have hnn : (0 : Int) ≤ if poolKey e'.pool e'.account = poolKey e.pool e.account
          then 1 else 0 := by
        split <;> omega
      omega

theorem sum_map_add (ks : List Str) (F G : Str → Int) :
    (ks.map (fun k => F k + G k)).sum = (ks.map F).sum + (ks.map G).sum := by
  induction ks with
  | nil => simp
  | cons k t ih => simp [ih]; ring

theorem sum_indicator_zero {a : Str} :
    ∀ {ks : List Str}, a ∉ ks → (ks.map (fun k => if a = k then (1 : Int) else 0)).sum = 0 := by
  intro ks
  induction ks with
  | nil => intro _; rfl
  | cons k t ih =>
    intro h
    rw [List.mem_cons] at h
    push_neg at h
    simp only [List.map_cons, List.sum_cons, if_neg h.1, ih h.2]
    ring

theorem sum_indicator_one {a : Str} :
    ∀ {ks : List Str}, a ∈ ks → ks.Nodup →
      (ks.map (fun k => if a = k then (1 : Int) else 0)).sum = 1 := by
  intro ks
  induction ks with
  | nil => intro h; cases h
  | cons k t ih =>
    intro hm hnd
    rw [List.nodup_cons] at hnd
    rcases List.mem_cons.mp hm with rfl | hm2
    · rw [List.map_cons, List.sum_cons, if_pos rfl,
        sum_indicator_zero hnd.1]
      ring
    · have hne : a ≠ k := by
        intro hh
        subst hh
        exact hnd.1 hm2
      simp only [List.map_cons, List.sum_cons, if_neg hne, ih hm2 hnd.2]
      ring

theorem ksum_eq_length :
    ∀ (m : List (Str × AffinityEntry)) (ks : List Str), ks.Nodup →
      (∀ kv ∈ m, poolKey kv.2.pool kv.2.account ∈ ks) →
      (ks.map (fun k => pinCount k m)).sum = (m.length : Int) := by
  intro m
  induction m with
  | nil =>
    intro ks _ _
    have : ∀ k ∈ ks, pinCount k [] = 0 := fun k _ => rfl
    rw [List.map_congr_left this]
    simp
  | cons kv t ih =>
    obtain ⟨k0, e⟩ := kv
    intro ks hnd hall
    have hstep : ∀ k ∈ ks, pinCount k ((k0, e) :: t)
        = pinCount k t + (if poolKey e.pool e.account = k then 1 else 0) := by
      intro k _
      rw [pinCount_cons]
    rw [List.map_congr_left hstep, sum_map_add,
      ih ks hnd (fun kv2 hkv2 => hall kv2 (List.mem_cons_of_mem _ hkv2)),
      sum_indicator_one (hall (k0, e) (List.mem_cons_self _ _)) hnd]
    simp only [List.length_cons]
    push_cast
    ring

/-- For every internally consistent state, the counts sum equals the
number of entries in the primary map. -/
theorem countsSum_eq_length {s : AffinityState} (h : affInv s) :
    countsSum s = (s.map.length : Int) := by
  obtain ⟨hm, hc, hcnt⟩ := h
  have hvals : ∀ kv ∈ s.counts, kv.2 = pinCount kv.1 s.map := by
    intro kv hkv
    have := mget_of_mem_nodup hc kv hkv
    have h2 := hcnt kv.1
    rw [this] at h2
    exact h2
  have hsum : (s.counts.map Prod.snd).sum
      = ((s.counts.map Prod.fst).map (fun k => pinCount k s.map)).sum := by
    rw [List.map_map]
    exact congrArg List.sum (List.map_congr_left (fun kv hkv => hvals kv hkv))
  rw [countsSum, hsum]
  refine ksum_eq_length s.map (s.counts.map Prod.fst) hc ?_
  intro kv hkv
  by_contra hmem
  have hnone := mget_eq_none_of_not_mem_keys (k := poolKey kv.2.pool kv.2.account) hmem
  have h0 := hcnt (poolKey kv.2.pool kv.2.account)
  rw [hnone] at h0
  have h1 : 1 ≤ pinCount (poolKey kv.2.pool kv.2.account) s.map :=
    @pinCount_pos_of_mem kv.1 _ _ (by
      rcases kv with ⟨k0, e⟩
      exact hkv)
  simp only [Option.getD_none] at h0
  omega

theorem mdel_length {V : Type} {k : Str} {v : V} :
    ∀ {l : List (Str × V)}, mget k l = some v → (mdel k l).length + 1 = l.length := by
  intro l
  induction l with
  | nil => intro h; cases h
  | cons kv t ih =>
    obtain ⟨k', v'⟩ := kv
    intro h
    rw [mget] at h
    rw [mdel]
    by_cases hk : k' = k
    · rw [if_pos hk]
      rfl
    · rw [if_neg hk] at h
      rw [if_neg hk, List.length_cons, List.length_cons, ih h]

theorem mset_length_of_mem {V : Type} {k : Str} {v : V} (w : V) :
    ∀ {l : List (Str × V)}, mget k l = some v → (mset k w l).length = l.length := by
  intro l
  induction l with
  | nil => intro h; cases h
  | cons kv t ih =>
    obtain ⟨k', v'⟩ := kv
    intro h
    rw [mget] at h
    rw [mset]
    by_cases hk : k' = k
    · rw [if_pos hk]
      rfl
    · rw [if_neg hk] at h
      rw [if_neg hk, List.length_cons, List.length_cons, ih h]

/-- `peek` keeps the counts sum, except that evicting an expired entry
lowers it by one. -/
theorem peek_countsSum {s : AffinityState} (h : AffReachable s) (now : Int) (tid prov : Str) :
    countsSum (affPeek now tid prov s).2 = countsSum s ∨
    ∃ e, mget (affKey tid prov) s.map = some e ∧ now - e.assignedAt > TTL_MS ∧
      countsSum (affPeek now tid prov s).2 = countsSum s - 1 := by
  have hp : AffReachable (affPeek now tid prov s).2 := AffReachable.peek now tid prov h
  have h1 := countsSum_eq_length (affInv_reachable h)
  have h2 := countsSum_eq_length (affInv_reachable hp)
  cases hmg : mget (affKey tid prov) s.map with
  | none =>
    left
    have hst : (affPeek now tid prov s).2 = s := by
      simp only [affPeek, hmg]
    rw [hst]
  | some e =>
    by_cases hexp : now - e.assignedAt > TTL_MS
    · right
      refine ⟨e, rfl, hexp, ?_⟩
      have hst : (affPeek now tid prov s).2 = removeExpired (affKey tid prov) e s := by
        simp only [affPeek, hmg, if_pos hexp]
      have hmap : (affPeek now tid prov s).2.map = mdel (affKey tid prov) s.map := by
        rw [hst, removeExpired, map_decCount]
      have hlen := mdel_length (k := affKey tid prov) (v := e) hmg
      rw [h2, hmap, h1]
      omega
    · left
      have hst : (affPeek now tid prov s).2 = s := by
        simp only [affPeek, hmg, if_neg hexp]
      rw [hst]

/-- `get` keeps the counts sum, except that evicting an expired entry
lowers it by one (the touch itself changes no count). -/
theorem get_countsSum {s : AffinityState} (h : AffReachable s) (now : Int) (tid prov : Str) :
    countsSum (affGet now tid prov s).2 = countsSum s ∨
    ∃ e, mget (affKey tid prov) s.map = some e ∧ now - e.assignedAt > TTL_MS ∧
      countsSum (affGet now tid prov s).2 = countsSum s - 1 := by
  have hg : AffReachable (affGet now tid prov s).2 := AffReachable.get now tid prov h
  have h1 := countsSum_eq_length (affInv_reachable h)
  have h2 := countsSum_eq_length (affInv_reachable hg)
  cases hmg : mget (affKey tid prov) s.map with
  | none =>
    left
    have hpk : affPeek now tid prov s = (none, s) := by
      simp only [affPeek, hmg]
    have hst : (affGet now tid prov s).2 = s := by
      simp only [affGet, hpk]
    rw [hst]
  | some e =>
    by_cases hexp : now - e.assignedAt > TTL_MS
    · right
      refine ⟨e, rfl, hexp, ?_⟩
      have hpk : affPeek now tid prov s = (none, removeExpired (affKey tid prov) e s) := by
        simp only [affPeek, hmg, if_pos hexp]
      have hst : (affGet now tid prov s).2 = removeExpired (affKey tid prov) e s := by
        simp only [affGet, hpk]
      have hmap : (affGet now tid prov s).2.map = mdel (affKey tid prov) s.map := by
        rw [hst, removeExpired, map_decCount]
      have hlen := mdel_length (k := affKey tid prov) (v := e) hmg
      rw [h2, hmap, h1]
      omega
    · left
      have hpk : affPeek now tid prov s = (some e, s) := by
        simp only [affPeek, hmg, if_neg hexp]
      have hmap : (affGet now tid prov s).2.map
          = mset (affKey tid prov) { e with assignedAt := now } s.map := by
        simp only [affGet, hpk]
      rw [h2, hmap, h1, mset_length_of_mem _ hmg]

/-- The right-hand side of the spec's invariant sentence, taken at its word:
the number of map entries whose `assignedAt` lies within the TTL at `now`. -/
def specLiveCount (now : Int) (s : AffinityState) : Int :=
  ((s.map.filter (fun kv => decide (kv.2.assignedAt > now - TTL_MS))).length : Int)

/-- A concrete reachable affinity state with one pinned entry. -/
def affDemo : AffinityState :=
  affSet 0 (str "T") (str "P") QuotaPool.codex 0 emptyAffinity

/-- C4, counterexample: the invariant `Σ counts = |{entries with assignedAt >
now - TTL}|` does not hold at every time instant.  After a single `set` at
time 0, the counts sum is 1 for ever, while at `now = TTL_MS + 1` the sole
entry is expired (but not yet evicted), so the spec's right-hand side is 0. -/
theorem affinity_countsSum_live_cx :
    ¬ (∀ s, AffReachable s → ∀ now, countsSum s = specLiveCount now s) := by
  intro hcl
  have h0 : AffReachable affDemo :=
    AffReachable.set 0 (str "T") (str "P") QuotaPool.codex 0 AffReachable.empty
  have := hcl affDemo h0 (TTL_MS + 1)
  exact absurd this (by decide)

/-- C4, amended: in every reachable state of the affinity store, the sum of
all values of the secondary counts index equals the number of entries of the
primary map — expired-but-not-yet-evicted entries included, so the claim's
time-dependent live-entry count is correct only while no entry is expired. -/
theorem affinity_countsSum_eq_mapLength {s : AffinityState} (h : AffReachable s) :
    countsSum s = (s.map.length : Int) :=
  countsSum_eq_length (affInv_reachable h)

theorem affinity_countsSum_eq_mapLength_witness :
    countsSum affDemo = (affDemo.map.length : Int) :=
  affinity_countsSum_eq_mapLength
    (AffReachable.set 0 (str "T") (str "P") QuotaPool.codex 0 AffReachable.empty)

/-- C9: in every reachable state, the counts-index value of each
(pool, account) pair equals the number of map entries pinned to that pair
(entries past the TTL but not yet evicted included); hence an entry present
in the map forces its pair's count to be at least 1; and `get`/`peek` change
the counts sum only by evicting an expired entry. -/
theorem affinity_counts_pinned {s : AffinityState} (h : AffReachable s) :
    (∀ pool account, activeCount pool account s = pinCount (poolKey pool account) s.map)
    ∧ (∀ k e, mget k s.map = some e → 1 ≤ activeCount e.pool e.account s)
    ∧ (∀ now tid prov,
        countsSum (affPeek now tid prov s).2 = countsSum s ∨
        ∃ e, mget (affKey tid prov) s.map = some e ∧ now - e.assignedAt > TTL_MS ∧
          countsSum (affPeek now tid prov s).2 = countsSum s - 1)
    ∧ (∀ now tid prov,
        countsSum (affGet now tid prov s).2 = countsSum s ∨
        ∃ e, mget (affKey tid prov) s.map = some e ∧ now - e.assignedAt > TTL_MS ∧
          countsSum (affGet now tid prov s).2 = countsSum s - 1) := by
  obtain ⟨hmnd, hcnd, hcnt⟩ := affInv_reachable h
  refine ⟨fun pool account => hcnt (poolKey pool account), ?_,
    fun now tid prov => peek_countsSum h now tid prov,
    fun now tid prov => get_countsSum h now tid prov⟩
  intro k e hmg
  have hpin : 1 ≤ pinCount (poolKey e.pool e.account) s.map :=
    pinCount_pos_of_mem (mget_mem hmg)
  have := hcnt (poolKey e.pool e.account)
  rw [activeCount]
  omega

theorem affinity_counts_pinned_witness :
    (∀ pool account,
      activeCount pool account affDemo = pinCount (poolKey pool account) affDemo.map)
    ∧ (∀ k e, mget k affDemo.map = some e → 1 ≤ activeCount e.pool e.account affDemo)
    ∧ (∀ now tid prov,
        countsSum (affPeek now tid prov affDemo).2 = countsSum affDemo ∨
        ∃ e, mget (affKey tid prov) affDemo.map = some e ∧ now - e.assignedAt > TTL_MS ∧
          countsSum (affPeek now tid prov affDemo).2 = countsSum affDemo - 1)
    ∧ (∀ now tid prov,
        countsSum (affGet now tid prov affDemo).2 = countsSum affDemo ∨
        ∃ e, mget (affKey tid prov) affDemo.map = some e ∧ now - e.assignedAt > TTL_MS ∧
          countsSum (affGet now tid prov affDemo).2 = countsSum affDemo - 1) :=
  affinity_counts_pinned
    (AffReachable.set 0 (str "T") (str "P") QuotaPool.codex 0 AffReachable.empty)

/-! ### Router (`src/routing/router.ts`)

Providers are identified with their quota pools (the registry maps each
pool to exactly one provider object); the credential store is abstracted
as the per-provider result of `store.getAll`, of which routing consults
only `refreshToken` truthiness. -/

/-- `ProviderName` of `src/auth/store.ts`. -/
inductive ProviderName where
  | anthropic
  | codex
  | google
deriving DecidableEq, Repr

/-- The slice of stored credentials the router consults. -/
structure Credentials where
  refreshToken : Str
deriving DecidableEq, Repr

/-- The result of `store.getAll(name)` for each provider name: ordered
`(account, credentials)` rows. -/
def StoreView : Type := ProviderName → List (Nat × Credentials)

/-- `credentialName` of the registry entry owning each pool. -/
def credName : QuotaPool → ProviderName
  | .anthropic => .anthropic
  | .codex => .codex
  | .gemini => .google
  | .antigravity => .google

/-- `provider.isAvailable(account)`: `!!store.get(name, account)?.refreshToken`. -/
def isAvailable (sv : StoreView) (pool : QuotaPool) (account : Nat) : Bool :=
  match (sv (credName pool)).find? (fun p => decide (p.1 = account)) with
  | none => false
  | some p => decide (p.2.refreshToken ≠ [])

structure Candidate where
  pool : QuotaPool
  account : Nat
deriving DecidableEq, Repr

/-- The fields of `RouteResult` the claims speak about; the handler is
identified with its pool. -/
structure RouteResult where
  handler : Option QuotaPool
  account : Nat
  pool : Option QuotaPool
deriving DecidableEq, Repr

/-- The `config.providers` flags. -/
structure ProxyProviders where
  anthropic : Bool
  codex : Bool
  google : Bool
deriving DecidableEq, Repr

/-- `addAccountCandidates`: one candidate per stored account whose
`refreshToken` is truthy, in `getAll` order. -/
def addAccountCandidates (sv : StoreView) (pool : QuotaPool) (pname : ProviderName) :
    List Candidate :=
  (sv pname).filterMap
    (fun p => if p.2.refreshToken ≠ [] then some ⟨pool, p.1⟩ else none)

def buildCandidates (ampProvider : Str) (cfg : ProxyProviders) (sv : StoreView) :
    List Candidate :=
  if ampProvider = str "anthropic" then
    if cfg.anthropic then addAccountCandidates sv .anthropic .anthropic else []
  else if ampProvider = str "openai" then
    if cfg.codex then addAccountCandidates sv .codex .codex else []
  else if ampProvider = str "google" then
    if cfg.google then
      addAccountCandidates sv .gemini .google ++ addAccountCandidates sv .antigravity .google
    else []
  else []

/-- The `candidates.filter((c) => !cooldown.isCoolingDown(...))` step;
the cooldown map is threaded because `isCoolingDown` evicts lazily. -/
def filterCooling (now : Int) : List Candidate → CooldownState → List Candidate × CooldownState
  | [], cd => ([], cd)
  | c :: t, cd =>
    let r := isCoolingDown now c.pool c.account cd
    let rest := filterCooling now t r.2
    (if r.1 then rest.1 else c :: rest.1, rest.2)

/-- The least-connections scan of `pickCandidate` (strictly-smaller load
replaces the running best, so the first minimum wins). -/
def bestGo (aff : AffinityState) : List Candidate → Candidate → Int → Candidate
  | [], best, _ => best
  | c :: t, best, bestLoad =>
    let load := activeCount c.pool c.account aff
    if load < bestLoad then bestGo aff t c load else bestGo aff t best bestLoad

def pickCandidate (now : Int) (aff : AffinityState) (cands : List Candidate)
    (cd : CooldownState) : Option Candidate × CooldownState :=
  let fr := filterCooling now cands cd
  match fr.1 with
  | [] => (none, fr.2)
  | b :: rest => (some (bestGo aff rest b (activeCount b.pool b.account aff)), fr.2)

/-- The tail of `routeRequest` after the thread-affinity block: build the
candidate list, pick, pin. -/
def routeRequestTail (now : Int) (ampProvider : Str) (cfg : ProxyProviders) (sv : StoreView)
    (threadId : Option Str) (cd : CooldownState) (aff : AffinityState) :
    RouteResult × CooldownState × AffinityState :=
  let candidates := buildCandidates ampProvider cfg sv
  if candidates.length = 0 then (⟨none, 0, none⟩, cd, aff)
  else
    let pk := pickCandidate now aff candidates cd
    match pk.1 with
    | none => (⟨none, 0, none⟩, pk.2, aff)
    | some picked =>
      let aff2 :=
        match threadId with
        | some tid => affSet now tid ampProvider picked.pool picked.account aff
        | none => aff
      (⟨some picked.pool, picked.account, some picked.pool⟩, pk.2, aff2)

/-- `routeRequest`, with the clock, the config, and the store view passed
explicitly and the cooldown and affinity stores threaded. -/
def routeRequest (now : Int) (ampProvider : Str) (cfg : ProxyProviders) (sv : StoreView)
    (threadId : Option Str) (cd : CooldownState) (aff : AffinityState) :
    RouteResult × CooldownState × AffinityState :=
  match threadId with
  | none => routeRequestTail now ampProvider cfg sv none cd aff
  | some tid =>
    let g := affGet now tid ampProvider aff
    match g.1 with
    | none => routeRequestTail now ampProvider cfg sv (some tid) cd g.2
    | some pinned =>
      let ex := isExhausted now pinned.pool pinned.account cd
      if ex.1 = false ∧ isAvailable sv pinned.pool pinned.account then
        let cdc := isCoolingDown now pinned.pool pinned.account ex.2
        if cdc.1 = false then
          (⟨some pinned.pool, pinned.account, some pinned.pool⟩, cdc.2, g.2)
        else
          routeRequestTail now ampProvider cfg sv (some tid) cdc.2 (affClear tid ampProvider g.2)
      else
        routeRequestTail now ampProvider cfg sv (some tid) ex.2 (affClear tid ampProvider g.2)

/-- `rerouteAfter429`. -/
def rerouteAfter429 (now : Int) (ampProvider : Str) (cfg : ProxyProviders) (sv : StoreView)
    (failedPool : QuotaPool) (failedAccount : Nat) (retryAfterSeconds : Option Int)
    (threadId : Option Str) (cd : CooldownState) (aff : AffinityState) :
    Option RouteResult × CooldownState × AffinityState :=
  let cd1 := record429 now failedPool failedAccount retryAfterSeconds cd
  let st :=
    match threadId with
    | some tid =>
      let ex := isExhausted now failedPool failedAccount cd1
      if ex.1 then (ex.2, affClear tid ampProvider aff) else (ex.2, aff)
    | none => (cd1, aff)
  let candidates := buildCandidates ampProvider cfg sv
  let pk := pickCandidate now st.2 candidates st.1
  match pk.1 with
  | none => (none, pk.2, st.2)
  | some picked =>
    let aff2 :=
      match threadId with
      | some tid => affSet now tid ampProvider picked.pool picked.account st.2
      | none => st.2
    (some ⟨some picked.pool, picked.account, some picked.pool⟩, pk.2, aff2)

/-- The load `pickCandidate` compares: `affinity.activeCount(c.pool, c.account)`. -/
def candLoad (aff : AffinityState) (c : Candidate) : Int := activeCount c.pool c.account aff

/-- The spec's words, as a definition: the argmin of `activeCount` over the
available candidates, ties broken by candidate-list order — the first
candidate whose load is ≤ every candidate's load. -/
def specPick (aff : AffinityState) (avail : List Candidate) : Option Candidate :=
  avail.find?
    (fun c => avail.all (fun c2 => decide (candLoad aff c ≤ candLoad aff c2)))

theorem bestGo_min (aff : AffinityState) :
    ∀ (t : List Candidate) (b : Candidate),
      (bestGo aff t b (candLoad aff b) = b ∨ bestGo aff t b (candLoad aff b) ∈ t)
      ∧ candLoad aff (bestGo aff t b (candLoad aff b)) ≤ candLoad aff b
      ∧ ∀ c ∈ t, candLoad aff (bestGo aff t b (candLoad aff b)) ≤ candLoad aff c := by
  intro t
  induction t with
  | nil =>
    intro b
    exact ⟨Or.inl rfl, le_refl _, fun c hc => absurd hc (List.not_mem_nil c)⟩
  | cons c t ih =>
    intro b
    rw [bestGo]
    by_cases hlt : activeCount c.pool c.account aff < candLoad aff b
    · rw [if_pos hlt]
      have hc : activeCount c.pool c.account aff = candLoad aff c := rfl
      rw [hc] at hlt ⊢
      obtain ⟨hmem, hle, hall⟩ := ih c
      refine ⟨Or.inr ?_, by omega, ?_⟩
      · rcases hmem with h | h
        · rw [h]; exact List.mem_cons_self _ _
        · exact List.mem_cons_of_mem _ h
      · intro x hx
        rcases List.mem_cons.mp hx with rfl | hx2
        · exact hle
        · exact hall x hx2
    · rw [if_neg hlt]
      have hc : activeCount c.pool c.account aff = candLoad aff c := rfl
      rw [hc] at hlt
      obtain ⟨hmem, hle, hall⟩ := ih b
      refine ⟨?_, hle, ?_⟩
      · rcases hmem with h | h
        · exact Or.inl h
        · exact Or.inr (List.mem_cons_of_mem _ h)
      · intro x hx
        rcases List.mem_cons.mp hx with rfl | hx2
        · omega
        · exact hall x hx2

theorem bestGo_first (aff : AffinityState) :
    ∀ (t : List Candidate) (b : Candidate),
      ∃ pre suf, b :: t = pre ++ bestGo aff t b (candLoad aff b) :: suf
        ∧ ∀ c ∈ pre, candLoad aff (bestGo aff t b (candLoad aff b)) < candLoad aff c := by
  intro t
  induction t with
  | nil =>
    intro b
    exact ⟨[], [], rfl, fun c hc => absurd hc (List.not_mem_nil c)⟩
  | cons c t ih =>
    intro b
    rw [bestGo]
    by_cases hlt : activeCount c.pool c.account aff < candLoad aff b
    · rw [if_pos hlt]
      have hc : activeCount c.pool c.account aff = candLoad aff c := rfl
      rw [hc] at hlt ⊢
      obtain ⟨pre, suf, heq, hpre⟩ := ih c
      refine ⟨b :: pre, suf, by rw [List.cons_append, ← heq], ?_⟩
      intro x hx
      rcases List.mem_cons.mp hx with rfl | hx2
      · have := (bestGo_min aff t c).2.1
        omega
      · exact hpre x hx2
    · rw [if_neg hlt]
      have hc : activeCount c.pool c.account aff = candLoad aff c := rfl
      rw [hc] at hlt
      obtain ⟨pre, suf, heq, hpre⟩ := ih b
      cases pre with
      | nil =>
        rw [List.nil_append] at heq
        injection heq with h1 h2
        refine ⟨[], c :: t, ?_, fun x hx => absurd hx (List.not_mem_nil x)⟩
        rw [List.nil_append, ← h1]
      | cons p0 pre' =>
        rw [List.cons_append] at heq
        injection heq with h1 h2
        refine ⟨b :: c :: pre', suf, ?_, ?_⟩
        · rw [List.cons_append, List.cons_append, ← h2, h1]
        · intro x hx
          have hb : candLoad aff (bestGo aff t b (candLoad aff b)) < candLoad aff b := by
            have := hpre p0 (List.mem_cons_self _ _)
            rw [← h1] at this
            exact this
          rcases List.mem_cons.mp hx with rfl | hx2
          · exact hb
          · rcases List.mem_cons.mp hx2 with rfl | hx3
            · omega
            · exact hpre x (List.mem_cons_of_mem _ hx3)

theorem find?_pre_false {α : Type} {P : α → Bool} :
    ∀ (pre : List α) (r : α) (suf : List α),
      (∀ c ∈ pre, P c = false) → P r = true →
      (pre ++ r :: suf).find? P = some r := by
  intro pre
  induction pre with
  | nil =>
    intro r suf _ hr
    rw [List.nil_append]
    exact List.find?_cons_of_pos _ hr
  | cons p pre' ih =>
    intro r suf hpre hr
    have hp : ¬ (P p = true) := by
      rw [hpre p (List.mem_cons_self _ _)]
      exact Bool.false_ne_true
    rw [List.cons_append, List.find?_cons_of_neg _ hp,
      ih r suf (fun c hc => hpre c (List.mem_cons_of_mem _ hc)) hr]

/-- `pickCandidate`'s scan returns exactly the spec's argmin with ties
broken by candidate-list order. -/
theorem specPick_eq (aff : AffinityState) (t : List Candidate) (b : Candidate) :
    specPick aff (b :: t) = some (bestGo aff t b (candLoad aff b)) := by
  obtain ⟨pre, suf, heq, hpre⟩ := bestGo_first aff t b
  obtain ⟨hmem, hle, hall⟩ := bestGo_min aff t b
  have hrmem : bestGo aff t b (candLoad aff b) ∈ b :: t := by
    rcases hmem with h | h
    · rw [h]; exact List.mem_cons_self _ _
    · exact List.mem_cons_of_mem _ h
  have hrle : ∀ c ∈ b :: t,
      candLoad aff (bestGo aff t b (candLoad aff b)) ≤ candLoad aff c := by
    intro c hc
    rcases List.mem_cons.mp hc with rfl | hc2
    · exact hle
    · exact hall c hc2
  have hPr : ((b :: t).all
      (fun c2 => decide (candLoad aff (bestGo aff t b (candLoad aff b)) ≤ candLoad aff c2)))
      = true :=
    List.all_eq_true.mpr (fun c2 hc2 => decide_eq_true (hrle c2 hc2))
  have hPpre : ∀ c ∈ pre,
      ((b :: t).all (fun c2 => decide (candLoad aff c ≤ candLoad aff c2))) = false := by
    intro c hc
    cases hP : (b :: t).all (fun c2 => decide (candLoad aff c ≤ candLoad aff c2)) with
    | false => rfl
    | true =>
      exfalso
      have hd := List.all_eq_true.mp hP _ hrmem
      have hle2 : candLoad aff c ≤ candLoad aff (bestGo aff t b (candLoad aff b)) :=
        of_decide_eq_true hd
      have := hpre c hc
      omega
  rw [heq] at hPr hPpre
  rw [specPick, heq]
  exact find?_pre_false pre _ suf hPpre hPr

theorem pickCandidate_spec (now : Int) (aff : AffinityState) (cands : List Candidate)
    (cd : CooldownState) :
    (pickCandidate now aff cands cd).1 = specPick aff (filterCooling now cands cd).1 := by
  simp only [pickCandidate]
  cases hfr : (filterCooling now cands cd).1 with
  | nil => rfl
  | cons b rest => exact (specPick_eq aff rest b).symm

/-- C2, corrected: a decision of the candidate-picking tail is either the
`(0, null-handler)` upstream fallback or the first argmin of `activeCount`
over the candidates not cooling down; but a decision taken on the
thread-affinity fast path returns the pinned account as is (no argmin
comparison), and otherwise the pin is cleared and the tail decides. -/
theorem routeRequest_account_cases :
    (∀ now ampProvider cfg sv threadId cd aff,
      (routeRequestTail now ampProvider cfg sv threadId cd aff).1
        = ⟨none, 0, none⟩ ∨
      ∃ c, specPick aff (filterCooling now (buildCandidates ampProvider cfg sv) cd).1
          = some c ∧
        (routeRequestTail now ampProvider cfg sv threadId cd aff).1
          = ⟨some c.pool, c.account, some c.pool⟩)
    ∧ (∀ now ampProvider cfg sv tid cd aff,
      (∃ e, (affGet now tid ampProvider aff).1 = some e ∧
        routeRequest now ampProvider cfg sv (some tid) cd aff
          = (⟨some e.pool, e.account, some e.pool⟩,
              (isCoolingDown now e.pool e.account
                (isExhausted now e.pool e.account cd).2).2,
              (affGet now tid ampProvider aff).2)) ∨
      (∃ cd2 aff2, routeRequest now ampProvider cfg sv (some tid) cd aff
          = routeRequestTail now ampProvider cfg sv (some tid) cd2 aff2)) := by
  constructor
  · intro now ampProvider cfg sv threadId cd aff
    simp only [routeRequestTail]
    by_cases hlen : (buildCandidates ampProvider cfg sv).length = 0
    · rw [if_pos hlen]
      left
      rfl
    · rw [if_neg hlen]
      have hps := pickCandidate_spec now aff (buildCandidates ampProvider cfg sv) cd
      cases hpk : (pickCandidate now aff (buildCandidates ampProvider cfg sv) cd).1 with
      | none =>
        simp only [hpk]
        left
        trivial
      | some picked =>
        simp only [hpk]
        right
        refine ⟨picked, by rw [← hps, hpk], ?_⟩
        cases threadId <;> rfl
  · intro now ampProvider cfg sv tid cd aff
    simp only [routeRequest]
    cases hg : (affGet now tid ampProvider aff).1 with
    | none =>
      simp only [hg]
      exact Or.inr ⟨cd, (affGet now tid ampProvider aff).2, rfl⟩
    | some pinned =>
      simp only [hg]
      by_cases hav : (isExhausted now pinned.pool pinned.account cd).1 = false ∧
          isAvailable sv pinned.pool pinned.account = true
      · rw [if_pos hav]
        by_cases hcdc : (isCoolingDown now pinned.pool pinned.account
            (isExhausted now pinned.pool pinned.account cd).2).1 = false
        · rw [if_pos hcdc]
          exact Or.inl ⟨pinned, rfl, rfl⟩
        · rw [if_neg hcdc]
          exact Or.inr ⟨_, _, rfl⟩
      · rw [if_neg hav]
        exact Or.inr ⟨_, _, rfl⟩

/-- C2, counterexample: with a thread pinned to codex account 1 while codex
account 0 has the strictly smaller active count (and neither is cooling
down), `routeRequest` returns account 1 with a non-null handler — neither
the upstream fallback nor the argmin. -/
theorem routeRequest_pin_cx :
    ¬ (∀ now ampProvider cfg sv threadId cd aff,
        ((routeRequest now ampProvider cfg sv threadId cd aff).1.account = 0 ∧
          (routeRequest now ampProvider cfg sv threadId cd aff).1.handler = none) ∨
        (specPick aff
            (filterCooling now (buildCandidates ampProvider cfg sv) cd).1).map
              Candidate.account
          = some (routeRequest now ampProvider cfg sv threadId cd aff).1.account) := by
  intro h
  have := h 0 (str "openai") ⟨false, true, false⟩
    (fun n => match n with
      | ProviderName.codex => [(0, ⟨str "r"⟩), (1, ⟨str "r"⟩)]
      | _ => [])
    (some (str "T")) []
    (affSet 0 (str "T") (str "openai") QuotaPool.codex 1 emptyAffinity)
  exact absurd this (by decide)

/-! ### Retry engine (`src/server/server.ts`)

The adapter's upstream is modeled as a script of responses consumed in
order; `Bun.sleep` advances the clock; forwards and sleeps are logged.
`Number` and `Date.parse` stay the parameters `jsN`/`dP` of
`parseRetryAfter`.  `RouteResult`s produced by the router always carry
`handler = pool = some p`, so the engine reads the pool once and uses it
for both the forward and the cooldown bookkeeping (the source's
`route.handler!` / `route.pool!`). -/

def MAX_REROUTE_ATTEMPTS : Nat := 4
def CACHE_PRESERVE_WAIT_MAX_S : Int := 10

/-- One scripted upstream response. -/
structure Upstream where
  status : Nat
  retryAfter : Option Str
deriving DecidableEq, Repr

/-- The engine's world: clock, remaining script, cooldown and affinity
stores, and the log of forwards and sleeps. -/
structure EngineSt where
  now : Int
  script : List Upstream
  cd : CooldownState
  aff : AffinityState
  forwards : List (QuotaPool × Nat)
  sleeps : List Int
deriving DecidableEq, Repr

/-- One `handler.forward(...)` call: consume the next scripted response
(an exhausted script answers 200) and log the call. -/
def doForward (pool : QuotaPool) (account : Nat) (st : EngineSt) : Upstream × EngineSt :=
  match st.script with
  | [] => (⟨200, none⟩, { st with forwards := st.forwards ++ [(pool, account)] })
  | r :: t => (r, { st with script := t, forwards := st.forwards ++ [(pool, account)] })

/-- `Bun.sleep(ms)`: advance the clock and log. -/
def doSleep (ms : Int) (st : EngineSt) : EngineSt :=
  { st with now := st.now + ms, sleeps := st.sleeps ++ [ms] }

/-- `tryWithCachePreserve`. -/
def tryWithCachePreserve (jsN dP : Str → Option Int) (pool : QuotaPool) (account : Nat)
    (resp0 : Upstream) (st : EngineSt) : Option Upstream × EngineSt :=
  match parseRetryAfter jsN dP st.now resp0.retryAfter with
  | none => (none, st)
  | some retryAfter =>
    if retryAfter > CACHE_PRESERVE_WAIT_MAX_S then (none, st)
    else
      let st1 := doSleep (retryAfter * 1000) st
      let fr := doForward pool account st1
      let resp := fr.1
      let st2 := fr.2
      if resp.status ≠ 429 ∧ resp.status ≠ 401 then
        (some resp, { st2 with cd := recordSuccess pool account st2.cd })
      else if resp.status = 429 then
        let nextRA := parseRetryAfter jsN dP st2.now resp.retryAfter
        (none, { st2 with cd := record429 st2.now pool account nextRA st2.cd })
      else (none, st2)

/-- The `for (attempt …)` loop of `tryReroute`, fuel = remaining attempts. -/
def tryRerouteGo (jsN dP : Str → Option Int) (ampProvider : Str) (cfg : ProxyProviders)
    (sv : StoreView) (threadId : Option Str) (retryAfter : Option Int) :
    Nat → QuotaPool → Nat → EngineSt → Option Upstream × EngineSt
  | 0, _, _, st => (none, st)
  | n + 1, curPool, curAcc, st =>
    let rr := rerouteAfter429 st.now ampProvider cfg sv curPool curAcc retryAfter threadId
      st.cd st.aff
    match rr.1 with
    | none => (none, { st with cd := rr.2.1, aff := rr.2.2 })
    | some next =>
      match next.pool with
      | none => (none, { st with cd := rr.2.1, aff := rr.2.2 })
      | some p =>
        let st1 := { st with cd := rr.2.1, aff := rr.2.2 }
        let fr := doForward p next.account st1
        let resp := fr.1
        let st2 := fr.2
        if resp.status = 429 then
          let nextRA := parseRetryAfter jsN dP st2.now resp.retryAfter
          tryRerouteGo jsN dP ampProvider cfg sv threadId retryAfter n p next.account
            { st2 with cd := record429 st2.now p next.account nextRA st2.cd }
        else if resp.status ≠ 401 then
          (some resp, { st2 with cd := recordSuccess p next.account st2.cd })
        else (none, st2)

/-- `tryReroute`: the Retry-After of the *initial* response governs every
reroute attempt. -/
def tryReroute (jsN dP : Str → Option Int) (ampProvider : Str) (cfg : ProxyProviders)
    (sv : StoreView) (threadId : Option Str) (initialRoute : RouteResult)
    (resp0 : Upstream) (st : EngineSt) : Option Upstream × EngineSt :=
  let retryAfter := parseRetryAfter jsN dP st.now resp0.retryAfter
  match initialRoute.pool with
  | none => (none, st)
  | some p =>
    tryRerouteGo jsN dP ampProvider cfg sv threadId retryAfter MAX_REROUTE_ATTEMPTS p
      initialRoute.account st

/-- The provider path of `handleProvider`; `none` as first component models
falling back to the Amp upstream. -/
def handleProvider (jsN dP : Str → Option Int) (ampProvider : Str) (cfg : ProxyProviders)
    (sv : StoreView) (threadId : Option Str) (st : EngineSt) : Option Upstream × EngineSt :=
  let r := routeRequest st.now ampProvider cfg sv threadId st.cd st.aff
  let route := r.1
  let st0 := { st with cd := r.2.1, aff := r.2.2 }
  match route.handler with
  | none => (none, st0)
  | some hp =>
    let fr := doForward hp route.account st0
    let resp := fr.1
    let st1 := fr.2
    if resp.status = 429 ∧ route.pool.isSome then
      let c := tryWithCachePreserve jsN dP hp route.account resp st1
      match c.1 with
      | some cached => (some cached, c.2)
      | none =>
        let rr := tryReroute jsN dP ampProvider cfg sv threadId route resp c.2
        match rr.1 with
        | some rerouted => (some rerouted, rr.2)
        | none => (none, rr.2)
    else if resp.status = 401 then (none, st1)
    else
      match route.pool with
      | some p => (some resp, { st1 with cd := recordSuccess p route.account st1.cd })
      | none => (some resp, st1)

/-- When the first forward answers 429 and the cache-preserve retry fails,
`handleProvider` hands the request to `tryReroute` and returns its result
(`none` standing for the upstream fallback). -/
theorem handleProvider_429_path (jsN dP : Str → Option Int) (amp : Str)
    (cfg : ProxyProviders) (sv : StoreView) (tid : Option Str) (st : EngineSt)
    {route : RouteResult} {p : QuotaPool} {cd' : CooldownState} {aff' : AffinityState}
    (hr : routeRequest st.now amp cfg sv tid st.cd st.aff = (route, cd', aff'))
    (hh : route.handler = some p)
    (hpool : route.pool.isSome = true)
    {resp : Upstream} {st1 : EngineSt}
    (hf : doForward p route.account { st with cd := cd', aff := aff' } = (resp, st1))
    (h429 : resp.status = 429)
    {c2 : EngineSt}
    (hc : tryWithCachePreserve jsN dP p route.account resp st1 = (none, c2)) :
    handleProvider jsN dP amp cfg sv tid st
      = ((tryReroute jsN dP amp cfg sv tid route resp c2).1,
          (tryReroute jsN dP amp cfg sv tid route resp c2).2) := by
  simp only [handleProvider, hr, hh, hf, hc]
  rw [if_pos ⟨h429, hpool⟩]
  cases hout : (tryReroute jsN dP amp cfg sv tid route resp c2).1 with
  | none => simp only [hout]
  | some r => simp only [hout]

/-- One reroute attempt that lands on an account whose response is neither
429 nor 401: the loop records success and returns that response. -/
theorem tryRerouteGo_success (jsN dP : Str → Option Int) (amp : Str) (cfg : ProxyProviders)
    (sv : StoreView) (tid : Option Str) (ra : Option Int) (n : Nat)
    (curPool : QuotaPool) (curAcc : Nat) (st : EngineSt)
    {nx : RouteResult} {cd2 : CooldownState} {aff2 : AffinityState}
    (hrr : rerouteAfter429 st.now amp cfg sv curPool curAcc ra tid st.cd st.aff
      = (some nx, cd2, aff2))
    {p : QuotaPool} (hp : nx.pool = some p)
    {resp : Upstream} {st2 : EngineSt}
    (hf : doForward p nx.account { st with cd := cd2, aff := aff2 } = (resp, st2))
    (hs : ¬ resp.status = 429) (hs2 : resp.status ≠ 401) :
    tryRerouteGo jsN dP amp cfg sv tid ra (n + 1) curPool curAcc st
      = (some resp, { st2 with cd := recordSuccess p nx.account st2.cd }) := by
  simp only [tryRerouteGo, hrr, hp, hf]
  rw [if_neg hs, if_pos hs2]

/-- Two stored codex accounts (0 and 1), both with a refresh token. -/
def svC3 : StoreView := fun n =>
  match n with
  | ProviderName.codex => [(0, ⟨str "r"⟩), (1, ⟨str "r"⟩)]
  | _ => []

/-- Clean start: clock 0, no cooldowns, no affinity, and a script answering
429 `Retry-After: 3`, then 429 without the header, then 200. -/
def stC3 : EngineSt :=
  ⟨0, [⟨429, some (str "3")⟩, ⟨429, none⟩, ⟨200, none⟩], [], emptyAffinity, [], []⟩

/-- C3: with two codex accounts of equal active count and no cooldowns, a
429 `Retry-After: 3` from the initially picked account 0 makes the engine
sleep 3 s and retry account 0; the second 429 is recorded and the request
is rerouted to account 1, whose 200 reaches the client; exactly three
adapter forwards happen.  Only `Number("3") = 3` is assumed of the
JS built-ins. -/
theorem retry_trace_c3 (jsN dP : Str → Option Int) (hj : jsN (str "3") = some 3) :
    (handleProvider jsN dP (str "openai") ⟨false, true, false⟩ svC3 none stC3).1
        = some ⟨200, none⟩
      ∧ (handleProvider jsN dP (str "openai") ⟨false, true, false⟩ svC3 none stC3).2.forwards
        = [(QuotaPool.codex, 0), (QuotaPool.codex, 0), (QuotaPool.codex, 1)]
      ∧ (handleProvider jsN dP (str "openai") ⟨false, true, false⟩ svC3 none stC3).2.sleeps
        = [3000] := by
  have h1 : ∀ now, parseRetryAfter jsN dP now (some (str "3")) = some 3 := by
    intro now
    simp only [parseRetryAfter, hj]
  have h2 : ∀ now, parseRetryAfter jsN dP now none = none := fun _ => rfl
  have hcp : tryWithCachePreserve jsN dP QuotaPool.codex 0 ⟨429, some (str "3")⟩
      ⟨0, [⟨429, none⟩, ⟨200, none⟩], [], emptyAffinity, [(QuotaPool.codex, 0)], []⟩
      = (none, ⟨3000, [⟨200, none⟩], [(str "codex:0", ⟨33000, false, 1⟩)], emptyAffinity,
          [(QuotaPool.codex, 0), (QuotaPool.codex, 0)], [3000]⟩) := by
    simp only [tryWithCachePreserve, doSleep, doForward, h1, h2]
    decide
  have hrr : tryReroute jsN dP (str "openai") ⟨false, true, false⟩ svC3 none
      ⟨some QuotaPool.codex, 0, some QuotaPool.codex⟩ ⟨429, some (str "3")⟩
      ⟨3000, [⟨200, none⟩], [(str "codex:0", ⟨33000, false, 1⟩)], emptyAffinity,
        [(QuotaPool.codex, 0), (QuotaPool.codex, 0)], [3000]⟩
      = (some ⟨200, none⟩,
         ⟨3000, [], [(str "codex:0", ⟨6000, false, 2⟩)], emptyAffinity,
          [(QuotaPool.codex, 0), (QuotaPool.codex, 0), (QuotaPool.codex, 1)], [3000]⟩) := by
    have ha : rerouteAfter429 3000 (str "openai") ⟨false, true, false⟩ svC3 QuotaPool.codex 0
        (some 3) none [(str "codex:0", ⟨33000, false, 1⟩)] emptyAffinity
        = (some ⟨some QuotaPool.codex, 1, some QuotaPool.codex⟩,
           [(str "codex:0", ⟨6000, false, 2⟩)], emptyAffinity) := by decide
    have hb : doForward QuotaPool.codex 1
        ⟨3000, [⟨200, none⟩], [(str "codex:0", ⟨6000, false, 2⟩)], emptyAffinity,
          [(QuotaPool.codex, 0), (QuotaPool.codex, 0)], [3000]⟩
        = (⟨200, none⟩,
           ⟨3000, [], [(str "codex:0", ⟨6000, false, 2⟩)], emptyAffinity,
            [(QuotaPool.codex, 0), (QuotaPool.codex, 0), (QuotaPool.codex, 1)], [3000]⟩) := by
      decide
    simp only [tryReroute, h1, MAX_REROUTE_ATTEMPTS]
    rw [show (4 : Nat) = 3 + 1 from rfl,
      tryRerouteGo_success jsN dP (str "openai") ⟨false, true, false⟩ svC3 none (some 3) 3
        QuotaPool.codex 0
        ⟨3000, [⟨200, none⟩], [(str "codex:0", ⟨33000, false, 1⟩)], emptyAffinity,
          [(QuotaPool.codex, 0), (QuotaPool.codex, 0)], [3000]⟩
        ha rfl hb (by decide) (by decide)]
    decide
  have hmain : handleProvider jsN dP (str "openai") ⟨false, true, false⟩ svC3 none stC3
      = (some ⟨200, none⟩,
         ⟨3000, [], [(str "codex:0", ⟨6000, false, 2⟩)], emptyAffinity,
          [(QuotaPool.codex, 0), (QuotaPool.codex, 0), (QuotaPool.codex, 1)], [3000]⟩) := by
    have hroute : routeRequest 0 (str "openai") ⟨false, true, false⟩ svC3 none [] emptyAffinity
        = (⟨some QuotaPool.codex, 0, some QuotaPool.codex⟩, [], emptyAffinity) := by decide
    have hh : (⟨some QuotaPool.codex, 0, some QuotaPool.codex⟩ : RouteResult).handler
        = some QuotaPool.codex := rfl
    have hpool : (⟨some QuotaPool.codex, 0, some QuotaPool.codex⟩ : RouteResult).pool.isSome
        = true := rfl
    have hfwd : doForward QuotaPool.codex 0
        ⟨0, [⟨429, some (str "3")⟩, ⟨429, none⟩, ⟨200, none⟩], [], emptyAffinity, [], []⟩
        = (⟨429, some (str "3")⟩,
           ⟨0, [⟨429, none⟩, ⟨200, none⟩], [], emptyAffinity, [(QuotaPool.codex, 0)], []⟩) := by
      decide
    have h429x : (⟨429, some (str "3")⟩ : Upstream).status = 429 := rfl
    rw [handleProvider_429_path jsN dP (str "openai") ⟨false, true, false⟩ svC3 none stC3
      hroute hh hpool hfwd h429x hcp, hrr]
  exact ⟨by rw [hmain], by rw [hmain], by rw [hmain]⟩

theorem retry_trace_c3_witness :
    (fun s => if s = str "3" then some (3 : Int) else none) (str "3") = some 3
      ∧ ((handleProvider (fun s => if s = str "3" then some (3 : Int) else none)
            (fun _ => none) (str "openai") ⟨false, true, false⟩ svC3 none stC3).1
          = some ⟨200, none⟩
        ∧ (handleProvider (fun s => if s = str "3" then some (3 : Int) else none)
            (fun _ => none) (str "openai") ⟨false, true, false⟩ svC3 none stC3).2.forwards
          = [(QuotaPool.codex, 0), (QuotaPool.codex, 0), (QuotaPool.codex, 1)]
        ∧ (handleProvider (fun s => if s = str "3" then some (3 : Int) else none)
            (fun _ => none) (str "openai") ⟨false, true, false⟩ svC3 none stC3).2.sleeps
          = [3000]) :=
  ⟨by decide,
   retry_trace_c3 (fun s => if s = str "3" then some (3 : Int) else none)
     (fun _ => none) (by decide)⟩

/-- The spec's description of the `record429` update, taken at its word:
the burst deadline uses `max(retryAfter, 30 s)`. -/
def specRecord429Entry (now : Int) (pool : QuotaPool) (account : Nat)
    (retryAfterSeconds : Option Int) (s : CooldownState) : CooldownEntry :=
  let entry0 := (mget (poolKey pool account) s).getD ⟨0, false, 0⟩
  let cnt := entry0.consecutive429 + 1
  let retryAfter := retryAfterSeconds.getD DEFAULT_BURST_S
  if retryAfter > EXHAUSTED_THRESHOLD_S ∨ cnt ≥ EXHAUSTED_CONSECUTIVE then
    ⟨now + EXHAUSTED_COOLDOWN_MS, true, cnt⟩
  else
    ⟨now + (max retryAfter DEFAULT_BURST_S) * 1000, entry0.exhausted, cnt⟩

/-- C1, counterexample: the burst deadline is `now + retryAfter * 1000`
with no lower bound — `record429` with `Retry-After: 3` cools down for
3 s, not the claimed `max(3 s, 30 s)`. -/
theorem record429_max_cx :
    ¬ (∀ now pool account (rA : Option Int) (s : CooldownState),
        record429 now pool account rA s
          = mset (poolKey pool account) (specRecord429Entry now pool account rA s) s) := by
  intro h
  have := h 0 QuotaPool.codex 0 (some 3) []
  exact absurd this (by decide)

/-- C1, amended: `record429` increments the consecutive-429 counter; if
`retryAfter > 300 s` (default 30 s when the header is unknown/absent) or
the incremented counter reaches 3, the entry becomes exhausted until
`now + 2 h`; otherwise the deadline is `now + retryAfter * 1000` — the
30 s value is only the default, not a lower bound — and the exhausted
flag keeps its previous value.  Other keys are untouched. -/
theorem record429_spec (now : Int) (pool : QuotaPool) (account : Nat)
    (rA : Option Int) (s : CooldownState) :
    ∃ e, mget (poolKey pool account) (record429 now pool account rA s) = some e
      ∧ e.consecutive429
          = ((mget (poolKey pool account) s).getD ⟨0, false, 0⟩).consecutive429 + 1
      ∧ ((rA.getD DEFAULT_BURST_S > EXHAUSTED_THRESHOLD_S ∨
            EXHAUSTED_CONSECUTIVE ≤ e.consecutive429) →
          e.exhausted = true ∧ e.until_ = now + EXHAUSTED_COOLDOWN_MS)
      ∧ (¬ (rA.getD DEFAULT_BURST_S > EXHAUSTED_THRESHOLD_S ∨
            EXHAUSTED_CONSECUTIVE ≤ e.consecutive429) →
          e.until_ = now + rA.getD DEFAULT_BURST_S * 1000
            ∧ e.exhausted = ((mget (poolKey pool account) s).getD ⟨0, false, 0⟩).exhausted)
      ∧ ∀ k, k ≠ poolKey pool account →
          mget k (record429 now pool account rA s) = mget k s := by
  rw [record429]
  simp only []
  by_cases hex : rA.getD DEFAULT_BURST_S > EXHAUSTED_THRESHOLD_S ∨
      ((mget (poolKey pool account) s).getD ⟨0, false, 0⟩).consecutive429 + 1
        ≥ EXHAUSTED_CONSECUTIVE
  · rw [if_pos hex]
    refine ⟨_, mget_mset_self _ _ _, rfl, fun _ => ⟨rfl, rfl⟩, fun hc => absurd hex hc,
      fun k hk => mget_mset_ne hk _ _⟩
  · rw [if_neg hex]
    refine ⟨_, mget_mset_self _ _ _, rfl, fun hc => absurd hc hex, fun _ => ⟨rfl, rfl⟩,
      fun k hk => mget_mset_ne hk _ _⟩

theorem record429_spec_witness :
    ∃ e, mget (poolKey QuotaPool.codex 0) (record429 0 QuotaPool.codex 0 (some 3) [])
        = some e
      ∧ e.consecutive429
          = ((mget (poolKey QuotaPool.codex 0) ([] : CooldownState)).getD
              ⟨0, false, 0⟩).consecutive429 + 1
      ∧ (((some (3 : Int)).getD DEFAULT_BURST_S > EXHAUSTED_THRESHOLD_S ∨
            EXHAUSTED_CONSECUTIVE ≤ e.consecutive429) →
          e.exhausted = true ∧ e.until_ = 0 + EXHAUSTED_COOLDOWN_MS)
      ∧ (¬ (((some (3 : Int)).getD DEFAULT_BURST_S > EXHAUSTED_THRESHOLD_S ∨
            EXHAUSTED_CONSECUTIVE ≤ e.consecutive429)) →
          e.until_ = 0 + (some (3 : Int)).getD DEFAULT_BURST_S * 1000
            ∧ e.exhausted = ((mget (poolKey QuotaPool.codex 0)
                ([] : CooldownState)).getD ⟨0, false, 0⟩).exhausted)
      ∧ ∀ k, k ≠ poolKey QuotaPool.codex 0 →
          mget k (record429 0 QuotaPool.codex 0 (some 3) [])
            = mget k ([] : CooldownState) :=
  record429_spec 0 QuotaPool.codex 0 (some 3) []

/-! ### Model mapping (`src/routing/models.ts`) and JSON values

JSON values parsed by the JS runtime; `JSON.parse`/`JSON.stringify`
themselves stay opaque parameters. -/

inductive Json where
  | jnull
  | jbool (b : Bool)
  | jnum (n : Int)
  | jstr (s : Str)
  | jarr (xs : List Json)
  | jobj (fields : List (Str × Json))

def STRIP_SUFFIXES : List Str := [str "-api-preview"]

/-- `resolveModel`: strip the first matching suffix, once. -/
def resolveModel (ampModel : Str) : Str :=
  match STRIP_SUFFIXES.find? (fun suffix => decide (suffix <:+ ampModel)) with
  | some suffix => ampModel.take (ampModel.length - suffix.length)
  | none => ampModel

/-- The spread `{ ...parsed, model: v }`: every field of `parsed` kept in
place, the `model` field overridden (appended when absent). -/
def objSpread {V : Type} (parsed : List (Str × V)) (k : Str) (v : V) : List (Str × V) :=
  if (parsed.map Prod.fst).contains k then
    parsed.map (fun kv => if kv.1 = k then (k, v) else kv)
  else parsed ++ [(k, v)]

/-- `rewriteBodyModel(parsed, providerModel)`; `JSON.stringify` is the
opaque parameter. -/
def rewriteBodyModel (stringify : List (Str × Json) → Str)
    (parsed : List (Str × Json)) (providerModel : Str) : Str :=
  stringify (objSpread parsed (str "model") (Json.jstr providerModel))

theorem resolveModel_eq (m : Str) :
    resolveModel m = if (str "-api-preview") <:+ m then m.take (m.length - 12) else m := by
  rw [resolveModel, STRIP_SUFFIXES]
  cases hd : decide ((str "-api-preview") <:+ m) with
  | true =>
    rw [if_pos (of_decide_eq_true hd)]
    simp only [List.find?, hd]
    rfl
  | false =>
    rw [if_neg (of_decide_eq_false hd)]
    simp only [List.find?, hd]

theorem mget_map_setkey_ne {V : Type} {k k' : Str} (hne : k' ≠ k) (v : V) :
    ∀ l : List (Str × V),
      mget k' (l.map (fun kv => if kv.1 = k then (k, v) else kv)) = mget k' l := by
  intro l
  induction l with
  | nil => rfl
  | cons kv t ih =>
    obtain ⟨a, b⟩ := kv
    rw [List.map_cons]
    by_cases ha : a = k
    · simp only [if_pos ha]
      rw [mget, if_neg (fun hh => hne hh.symm), mget,
        if_neg (fun hh => hne (hh.symm.trans ha)), ih]
    · simp only [if_neg ha]
      rw [mget, mget]
      by_cases ha' : a = k'
      · rw [if_pos ha', if_pos ha']
      · rw [if_neg ha', if_neg ha', ih]

theorem mget_map_setkey_self {V : Type} {k : Str} (v : V) :
    ∀ l : List (Str × V), k ∈ l.map Prod.fst →
      mget k (l.map (fun kv => if kv.1 = k then (k, v) else kv)) = some v := by
  intro l
  induction l with
  | nil => intro h; cases h
  | cons kv t ih =>
    obtain ⟨a, b⟩ := kv
    intro hmem
    rw [List.map_cons]
    by_cases ha : a = k
    · simp only [if_pos ha]
      rw [mget, if_pos rfl]
    · simp only [if_neg ha]
      rw [mget, if_neg ha]
      refine ih ?_
      rw [List.map_cons] at hmem
      rcases List.mem_cons.mp hmem with h | h
      · exact absurd h.symm ha
      · exact h

theorem mget_append_single_ne {V : Type} {k k' : Str} (hne : k' ≠ k) (v : V) :
    ∀ l : List (Str × V), mget k' (l ++ [(k, v)]) = mget k' l := by
  intro l
  induction l with
  | nil =>
    rw [List.nil_append]
    simp only [mget]
    rw [if_neg (fun hh => hne hh.symm)]
  | cons kv t ih =>
    obtain ⟨a, b⟩ := kv
    rw [List.cons_append, mget, mget]
    by_cases ha : a = k'
    · rw [if_pos ha, if_pos ha]
    · rw [if_neg ha, if_neg ha, ih]

theorem mget_append_single_self {V : Type} {k : Str} (v : V) :
    ∀ l : List (Str × V), k ∉ l.map Prod.fst → mget k (l ++ [(k, v)]) = some v := by
  intro l
  induction l with
  | nil =>
    intro _
    rw [List.nil_append, mget, if_pos rfl]
  | cons kv t ih =>
    obtain ⟨a, b⟩ := kv
    intro hmem
    rw [List.cons_append, mget,
      if_neg (fun hh => hmem (by rw [List.map_cons, hh]; exact List.mem_cons_self _ _))]
    exact ih (fun hh => hmem (by rw [List.map_cons]; exact List.mem_cons_of_mem _ hh))

/-- The spread override: the `model` key gets the new value. -/
theorem mget_objSpread_self {V : Type} (parsed : List (Str × V)) (k : Str) (v : V) :
    mget k (objSpread parsed k v) = some v := by
  rw [objSpread]
  by_cases hc : k ∈ parsed.map Prod.fst
  · rw [if_pos (show (parsed.map Prod.fst).contains k = true from
      List.elem_eq_true_of_mem hc)]
    exact mget_map_setkey_self v parsed hc
  · rw [if_neg (show ¬ (parsed.map Prod.fst).contains k = true from
      fun hh => hc (List.mem_of_elem_eq_true hh))]
    exact mget_append_single_self v parsed hc

/-- The spread copy: every other key keeps its value from `parsed`. -/
theorem mget_objSpread_ne {V : Type} {k k' : Str} (hne : k' ≠ k) (parsed : List (Str × V))
    (v : V) : mget k' (objSpread parsed k v) = mget k' parsed := by
  rw [objSpread]
  by_cases hc : (parsed.map Prod.fst).contains k = true
  · rw [if_pos hc]
    exact mget_map_setkey_ne hne v parsed
  · rw [if_neg hc]
    exact mget_append_single_ne hne v parsed

/-- C7, counterexample: `resolveModel` strips one `-api-preview` suffix,
so it is not idempotent — on `"x-api-preview-api-preview"` a second
application strips again. -/
theorem resolveModel_idem_cx :
    ¬ (∀ m : Str, resolveModel (resolveModel m) = resolveModel m) := by
  intro h
  have := h (str "x-api-preview-api-preview")
  exact absurd this (by decide)

/-- C7, amended: `resolveModel` is idempotent on every model name that does
not end in a doubled `-api-preview-api-preview` suffix (one strip is final
there); and the body rewrite is a pure spread copy: the serialized object
is `parsed` with exactly the `model` field overridden, every other field
keeping its value — the `parsed` argument itself is never written to. -/
theorem resolveModel_rewrite_spec :
    (∀ m : Str, ¬ (str "-api-preview-api-preview") <:+ m →
      resolveModel (resolveModel m) = resolveModel m)
    ∧ (∀ (stringify : List (Str × Json) → Str) (parsed : List (Str × Json))
        (providerModel : Str),
      rewriteBodyModel stringify parsed providerModel
          = stringify (objSpread parsed (str "model") (Json.jstr providerModel))
        ∧ mget (str "model") (objSpread parsed (str "model") (Json.jstr providerModel))
          = some (Json.jstr providerModel)
        ∧ ∀ k, k ≠ str "model" →
          mget k (objSpread parsed (str "model") (Json.jstr providerModel))
            = mget k parsed) := by
  constructor
  · intro m h
    by_cases h1 : (str "-api-preview") <:+ m
    · obtain ⟨u, hu⟩ := h1
      have hlen : m.length - 12 = u.length := by
        rw [← hu, List.length_append,
          show (str "-api-preview").length = 12 from rfl]
        omega
      have htake : m.take (m.length - 12) = u := by
        rw [hlen, ← hu, List.take_left]
      have hmm : resolveModel m = u := by
        rw [resolveModel_eq, if_pos ⟨u, hu⟩, htake]
      have hnos : ¬ (str "-api-preview") <:+ u := by
        intro hsuf
        obtain ⟨v, hv⟩ := hsuf
        apply h
        refine ⟨v, ?_⟩
        rw [show (str "-api-preview-api-preview")
            = str "-api-preview" ++ str "-api-preview" from rfl,
          ← List.append_assoc, hv, hu]
      have hmu : resolveModel u = u := by rw [resolveModel_eq, if_neg hnos]
      rw [hmm, hmu]
    · have hmm : resolveModel m = m := by rw [resolveModel_eq, if_neg h1]
      rw [hmm]
      exact hmm
  · intro stringify parsed providerModel
    exact ⟨rfl, mget_objSpread_self parsed _ _,
      fun k hk => mget_objSpread_ne hk parsed _⟩

theorem resolveModel_rewrite_spec_witness :
    ¬ (str "-api-preview-api-preview") <:+ str "gpt-5-api-preview"
      ∧ resolveModel (resolveModel (str "gpt-5-api-preview"))
        = resolveModel (str "gpt-5-api-preview")
      ∧ mget (str "model")
          (objSpread [(str "project", Json.jstr (str "p"))] (str "model")
            (Json.jstr (str "gpt-5")))
        = some (Json.jstr (str "gpt-5")) :=
  ⟨by decide,
   resolveModel_rewrite_spec.1 (str "gpt-5-api-preview") (by decide),
   (resolveModel_rewrite_spec.2 (fun _ => [])
     [(str "project", Json.jstr (str "p"))] (str "gpt-5")).2.1⟩

/-! ### Credential store (`src/auth/store.ts`)

The SQLite table is a list of rows keyed `(provider, account)`; the
payload stays a string and `JSON.parse` is the opaque `decode` parameter
(`none` = the parse threw).  `get`/`getAll` return and thread the table;
their totality models that corruption never escapes as an exception. -/

def dbGet (provider : ProviderName) (account : Nat) :
    List ((ProviderName × Nat) × Str) → Option Str
  | [] => none
  | (k, d) :: t => if k = (provider, account) then some d else dbGet provider account t

/-- `DELETE FROM credentials WHERE provider = ? AND account = ?`. -/
def dbDel (provider : ProviderName) (account : Nat)
    (rows : List ((ProviderName × Nat) × Str)) : List ((ProviderName × Nat) × Str) :=
  rows.filter (fun r => decide (r.1 ≠ (provider, account)))

/-- `store.get(provider, account)`. -/
def storeGetRow {C : Type} (decode : Str → Option C) (provider : ProviderName)
    (account : Nat) (rows : List ((ProviderName × Nat) × Str)) :
    Option C × List ((ProviderName × Nat) × Str) :=
  match dbGet provider account rows with
  | none => (none, rows)
  | some d =>
    match decode d with
    | some c => (some c, rows)
    | none => (none, dbDel provider account rows)

/-- The row loop of `store.getAll`, over the selected `(account, data)`
rows. -/
def getAllGo {C : Type} (decode : Str → Option C) (provider : ProviderName) :
    List (Nat × Str) → List ((ProviderName × Nat) × Str) →
      List (Nat × C) × List ((ProviderName × Nat) × Str)
  | [], rows => ([], rows)
  | (a, d) :: t, rows =>
    match decode d with
    | some c =>
      let r := getAllGo decode provider t rows
      ((a, c) :: r.1, r.2)
    | none => getAllGo decode provider t (dbDel provider a rows)

/-- `store.getAll(provider)`: the `WHERE provider = ?` selection in table
order, decoded row by row, corrupt rows deleted. -/
def storeGetAll {C : Type} (decode : Str → Option C) (provider : ProviderName)
    (rows : List ((ProviderName × Nat) × Str)) :
    List (Nat × C) × List ((ProviderName × Nat) × Str) :=
  getAllGo decode provider
    ((rows.filter (fun r => decide (r.1.1 = provider))).map (fun r => (r.1.2, r.2))) rows

theorem dbGet_dbDel_self (p : ProviderName) (a : Nat) :
    ∀ rows, dbGet p a (dbDel p a rows) = none := by
  intro rows
  induction rows with
  | nil => rfl
  | cons r t ih =>
    obtain ⟨k, d⟩ := r
    rw [dbDel] at ih ⊢
    rw [List.filter_cons]
    by_cases hk : k = (p, a)
    · rw [if_neg (by simp [hk])]
      exact ih
    · rw [if_pos (by simp [hk]), dbGet, if_neg hk]
      exact ih

theorem dbGet_dbDel_ne {p p' : ProviderName} {a a' : Nat} (h : (p', a') ≠ (p, a)) :
    ∀ rows, dbGet p' a' (dbDel p a rows) = dbGet p' a' rows := by
  intro rows
  induction rows with
  | nil => rfl
  | cons r t ih =>
    obtain ⟨k, d⟩ := r
    rw [dbDel] at ih ⊢
    rw [List.filter_cons]
    by_cases hk : k = (p, a)
    · rw [if_neg (by simp [hk]), dbGet, if_neg (by rw [hk]; exact fun hh => h hh.symm), ih]
    · rw [if_pos (by simp [hk]), dbGet, dbGet]
      by_cases hk' : k = (p', a')
      · rw [if_pos hk', if_pos hk']
      · rw [if_neg hk', if_neg hk', ih]

theorem getAllGo_fst {C : Type} (decode : Str → Option C) (p : ProviderName) :
    ∀ (cands : List (Nat × Str)) (rows : List ((ProviderName × Nat) × Str)),
      (getAllGo decode p cands rows).1
        = cands.filterMap (fun ad => (decode ad.2).map (fun c => (ad.1, c))) := by
  intro cands
  induction cands with
  | nil => intro rows; rfl
  | cons ad t ih =>
    intro rows
    obtain ⟨a, d⟩ := ad
    rw [getAllGo, List.filterMap_cons]
    cases hd : decode d with
    | none => simp [hd, ih]
    | some c => simp [hd, ih]

theorem getAllGo_snd_none {C : Type} (decode : Str → Option C) (p : ProviderName)
    (a : Nat) :
    ∀ (cands : List (Nat × Str)) (rows : List ((ProviderName × Nat) × Str)),
      dbGet p a rows = none → dbGet p a (getAllGo decode p cands rows).2 = none := by
  intro cands
  induction cands with
  | nil => intro rows h; exact h
  | cons ad t ih =>
    intro rows h
    obtain ⟨a', d⟩ := ad
    rw [getAllGo]
    cases hd : decode d with
    | some c => simpa using ih rows h
    | none =>
      simp only []
      refine ih (dbDel p a' rows) ?_
      by_cases ha : a' = a
      · subst ha; exact dbGet_dbDel_self p a' _
      · rw [dbGet_dbDel_ne (fun hh => ha (congrArg Prod.snd hh).symm)]
        exact h

theorem getAllGo_snd_corrupt {C : Type} (decode : Str → Option C) (p : ProviderName)
    {a : Nat} {d : Str} (hd : decode d = none) :
    ∀ (cands : List (Nat × Str)) (rows : List ((ProviderName × Nat) × Str)),
      (a, d) ∈ cands → dbGet p a (getAllGo decode p cands rows).2 = none := by
  intro cands
  induction cands with
  | nil => intro rows h; cases h
  | cons ad t ih =>
    intro rows hm
    obtain ⟨a', d'⟩ := ad
    rw [getAllGo]
    rcases List.mem_cons.mp hm with heq | hm2
    · injection heq with h1 h2
      subst h1; subst h2
      rw [hd]
      simp only []
      exact getAllGo_snd_none decode p a t _ (dbGet_dbDel_self p a rows)
    · cases hdd : decode d' with
      | some c => simpa using ih rows hm2
      | none =>
        simp only []
        exact ih _ hm2

theorem getAllGo_snd_preserve {C : Type} (decode : Str → Option C) (p : ProviderName)
    (p' : ProviderName) (a' : Nat) :
    ∀ (cands : List (Nat × Str)) (rows : List ((ProviderName × Nat) × Str)),
      (∀ ad ∈ cands, decode ad.2 = none → (p', a') ≠ (p, ad.1)) →
      dbGet p' a' (getAllGo decode p cands rows).2 = dbGet p' a' rows := by
  intro cands
  induction cands with
  | nil => intro rows _; rfl
  | cons ad t ih =>
    intro rows hh
    obtain ⟨a0, d0⟩ := ad
    rw [getAllGo]
    cases hd : decode d0 with
    | some c =>
      simpa using ih rows (fun x hx => hh x (List.mem_cons_of_mem _ hx))
    | none =>
      simp only []
      rw [ih _ (fun x hx => hh x (List.mem_cons_of_mem _ hx)),
        dbGet_dbDel_ne (hh (a0, d0) (List.mem_cons_self _ _) hd)]

theorem mem_nodup_unique {K V : Type} {l : List (K × V)}
    (hn : (l.map Prod.fst).Nodup) {k : K} {x y : V}
    (hx : (k, x) ∈ l) (hy : (k, y) ∈ l) : x = y := by
  induction l with
  | nil => cases hx
  | cons r t ih =>
    obtain ⟨k0, v0⟩ := r
    rw [List.map_cons, List.nodup_cons] at hn
    rcases List.mem_cons.mp hx with hex | hx2
    · injection hex with he1 he2
      rcases List.mem_cons.mp hy with hey | hy2
      · injection hey with hf1 hf2
        exact he2.trans hf2.symm
      · exfalso
        exact hn.1 (he1 ▸ List.mem_map.mpr ⟨(k, y), hy2, rfl⟩)
    · rcases List.mem_cons.mp hy with hey | hy2
      · injection hey with hf1 hf2
        exfalso
        exact hn.1 (hf1 ▸ List.mem_map.mpr ⟨(k, x), hx2, rfl⟩)
      · exact ih hn.2 hx2 hy2

/-- C8: a stored payload that fails to deserialize is deleted by the read
that hits it and reported absent — `get` answers `none` and leaves every
other row alone; `getAll` omits the corrupt account, deletes its row, and
leaves other providers' rows and this provider's healthy rows unchanged.
Both reads are total functions: corruption never propagates as an
exception. -/
theorem store_corrupt_row_spec {C : Type} (decode : Str → Option C) :
    (∀ (p : ProviderName) (a : Nat) (rows : List ((ProviderName × Nat) × Str)) (d : Str),
      dbGet p a rows = some d → decode d = none →
        (storeGetRow decode p a rows).1 = none
        ∧ dbGet p a (storeGetRow decode p a rows).2 = none
        ∧ ∀ (p' : ProviderName) (a' : Nat), (p', a') ≠ (p, a) →
            dbGet p' a' (storeGetRow decode p a rows).2 = dbGet p' a' rows)
    ∧ (∀ (p : ProviderName) (rows : List ((ProviderName × Nat) × Str)),
        (rows.map Prod.fst).Nodup →
        ∀ (a : Nat) (d : Str), ((p, a), d) ∈ rows → decode d = none →
          (∀ c : C, (a, c) ∉ (storeGetAll decode p rows).1)
          ∧ dbGet p a (storeGetAll decode p rows).2 = none
          ∧ (∀ (p' : ProviderName) (a' : Nat), p' ≠ p →
              dbGet p' a' (storeGetAll decode p rows).2 = dbGet p' a' rows)
          ∧ (∀ (a' : Nat) (d' : Str), ((p, a'), d') ∈ rows → (decode d').isSome = true →
              dbGet p a' (storeGetAll decode p rows).2 = dbGet p a' rows)) := by
  constructor
  · intro p a rows d hget hdec
    refine ⟨?_, ?_, ?_⟩ <;> simp only [storeGetRow, hget, hdec]
    · exact dbGet_dbDel_self p a rows
    · intro p' a' h
      exact dbGet_dbDel_ne h rows
  · intro p rows hn a d hrow hdec
    have hcand : (a, d) ∈ (rows.filter (fun r => decide (r.1.1 = p))).map
        (fun r => (r.1.2, r.2)) :=
      List.mem_map.mpr ⟨((p, a), d),
        List.mem_filter.mpr ⟨hrow, decide_eq_true rfl⟩, rfl⟩
    refine ⟨?_, ?_, ?_, ?_⟩
    · intro c hc
      rw [storeGetAll, getAllGo_fst] at hc
      obtain ⟨⟨a0, d0⟩, hmem, hf⟩ := List.mem_filterMap.mp hc
      cases hd0 : decode d0 with
      | none => rw [hd0] at hf; cases hf
      | some c0 =>
        rw [hd0] at hf
        injection hf with hf2
        injection hf2 with hfa hfc
        obtain ⟨r, hrf, hre⟩ := List.mem_map.mp hmem
        obtain ⟨⟨pr, ar⟩, dr⟩ := r
        have hre1 : ar = a0 := congrArg Prod.fst hre
        have hre2 : dr = d0 := congrArg Prod.snd hre
        have hpr : pr = p := of_decide_eq_true (List.mem_filter.mp hrf).2
        have hfa2 : a0 = a := hfa
        have hrr : ((p, a), dr) ∈ rows := by
          have := (List.mem_filter.mp hrf).1
          rwa [hpr, hre1, hfa2] at this
        have hdr : dr = d := mem_nodup_unique hn hrr hrow
        rw [← hre2, hdr, hdec] at hd0
        cases hd0
    · exact getAllGo_snd_corrupt decode p hdec _ rows hcand
    · intro p' a' hp
      refine getAllGo_snd_preserve decode p p' a' _ rows ?_
      intro ad _ _ hh
      exact hp (congrArg Prod.fst hh)
    · intro a' d' hrow' hsome
      refine getAllGo_snd_preserve decode p p a' _ rows ?_
      intro ad hmem hdn hh
      have ha' : ad.1 = a' := (congrArg Prod.snd hh).symm
      obtain ⟨r, hrf, hre⟩ := List.mem_map.mp hmem
      obtain ⟨⟨pr, ar⟩, dr⟩ := r
      have hpr : pr = p := of_decide_eq_true (List.mem_filter.mp hrf).2
      have hre1 : ar = ad.1 := congrArg Prod.fst hre
      have hre2 : dr = ad.2 := congrArg Prod.snd hre
      have hrr : ((p, a'), dr) ∈ rows := by
        have := (List.mem_filter.mp hrf).1
        rwa [hpr, hre1, ha'] at this
      have hdd : dr = d' := mem_nodup_unique hn hrr hrow'
      rw [← hre2, hdd] at hdn
      rw [hdn] at hsome
      cases hsome

/-- A toy `JSON.parse`: the payload `"bad"` throws, anything else parses
to itself. -/
def decC8 : Str → Option Str := fun s => if s = str "bad" then none else some s

/-- Two codex rows: account 0 corrupt, account 1 healthy. -/
def rowsC8 : List ((ProviderName × Nat) × Str) :=
  [((ProviderName.codex, 0), str "bad"), ((ProviderName.codex, 1), str "ok")]

theorem store_corrupt_row_spec_witness :
    ((storeGetRow decC8 ProviderName.codex 0 rowsC8).1 = none
      ∧ dbGet ProviderName.codex 0 (storeGetRow decC8 ProviderName.codex 0 rowsC8).2 = none
      ∧ ∀ (p' : ProviderName) (a' : Nat), (p', a') ≠ (ProviderName.codex, 0) →
          dbGet p' a' (storeGetRow decC8 ProviderName.codex 0 rowsC8).2
            = dbGet p' a' rowsC8)
    ∧ ((∀ c : Str, (0, c) ∉ (storeGetAll decC8 ProviderName.codex rowsC8).1)
      ∧ dbGet ProviderName.codex 0 (storeGetAll decC8 ProviderName.codex rowsC8).2 = none
      ∧ (∀ (p' : ProviderName) (a' : Nat), p' ≠ ProviderName.codex →
          dbGet p' a' (storeGetAll decC8 ProviderName.codex rowsC8).2
            = dbGet p' a' rowsC8)
      ∧ (∀ (a' : Nat) (d' : Str), ((ProviderName.codex, a'), d') ∈ rowsC8 →
          (decC8 d').isSome = true →
          dbGet ProviderName.codex a' (storeGetAll decC8 ProviderName.codex rowsC8).2
            = dbGet ProviderName.codex a' rowsC8)) :=
  ⟨(store_corrupt_row_spec decC8).1 ProviderName.codex 0 rowsC8 (str "bad")
      (by decide) (by decide),
   (store_corrupt_row_spec decC8).2 ProviderName.codex rowsC8 (by decide) 0 (str "bad")
      (by decide) (by decide)⟩

/-! ### Cloud Code Assist wrapping (`src/utils/code-assist.ts`) -/

/-- JS truthiness of a JSON value. -/
def truthy : Json → Bool
  | .jnull => false
  | .jbool b => b
  | .jnum n => decide (n ≠ 0)
  | .jstr s => decide (s ≠ [])
  | .jarr _ => true
  | .jobj _ => true

/-- `wrapRequest(opts)`: the Cloud Code Assist envelope, serialized.
`JSON.stringify`, `Date.now()` and the `crypto.randomUUID().slice(0, 8)`
fragment are parameters. -/
def wrapRequest (stringify : List (Str × Json) → Str) (now : Int) (uuid8 : Str)
    (projectId model : Str) (body : List (Str × Json))
    (userAgent requestIdPrefix : Str) (requestType : Option Str) : Str :=
  stringify
    ([(str "project", Json.jstr projectId),
      (str "model", Json.jstr model),
      (str "request", Json.jobj body)]
      ++ (match requestType with
          | some rt => if rt = [] then [] else [(str "requestType", Json.jstr rt)]
          | none => [])
      ++ [(str "userAgent", Json.jstr userAgent),
          (str "requestId",
            Json.jstr (requestIdPrefix ++ '-' :: (intRepr now ++ '-' :: uuid8)))])

/-- `maybeWrap(parsed, raw, projectId, model, opts)`; `parsed` is the
`JSON.parse` result, `none` standing for `null`. -/
def maybeWrap (stringify : List (Str × Json) → Str) (now : Int) (uuid8 : Str)
    (parsed : Option (List (Str × Json))) (raw : Str)
    (projectId model userAgent requestIdPrefix : Str) (requestType : Option Str) : Str :=
  match parsed with
  | none => raw
  | some obj =>
    if (match mget (str "project") obj with
        | some v => truthy v
        | none => false) then raw
    else wrapRequest stringify now uuid8 projectId model obj userAgent requestIdPrefix
      requestType

/-- C10: `maybeWrap` returns the raw body unchanged when the body failed to
parse or its `project` field is truthy, and produces the Cloud Code Assist
envelope exactly when the body parsed and `project` is absent or falsy —
in particular a body with `project: ""` is wrapped. -/
theorem maybeWrap_spec (stringify : List (Str × Json) → Str) (now : Int) (uuid8 : Str)
    (raw projectId model userAgent requestIdPrefix : Str) (requestType : Option Str) :
    (maybeWrap stringify now uuid8 none raw projectId model userAgent requestIdPrefix
        requestType = raw)
    ∧ (∀ (obj : List (Str × Json)) (v : Json),
        mget (str "project") obj = some v → truthy v = true →
        maybeWrap stringify now uuid8 (some obj) raw projectId model userAgent
          requestIdPrefix requestType = raw)
    ∧ (∀ obj : List (Str × Json),
        ((mget (str "project") obj).map truthy).getD false = false →
        maybeWrap stringify now uuid8 (some obj) raw projectId model userAgent
          requestIdPrefix requestType
          = wrapRequest stringify now uuid8 projectId model obj userAgent
              requestIdPrefix requestType) := by
  refine ⟨rfl, ?_, ?_⟩
  · intro obj v hm ht
    rw [maybeWrap]
    rw [if_pos (by rw [hm]; exact ht)]
  · intro obj h
    rw [maybeWrap]
    cases hm : mget (str "project") obj with
    | none => rw [if_neg (fun hh => Bool.false_ne_true hh)]
    | some v =>
      rw [hm, Option.map_some'] at h
      have h' : truthy v = false := h
      rw [if_neg (fun hh => Bool.false_ne_true (h'.symm.trans hh))]

theorem maybeWrap_spec_witness :
    ((mget (str "project") [(str "project", Json.jstr [])]).map truthy).getD false = false
      ∧ maybeWrap (fun _ => str "W") 0 (str "u")
          (some [(str "project", Json.jstr [])]) (str "R") (str "P") (str "M")
          (str "antigravity") (str "agent") none
        = wrapRequest (fun _ => str "W") 0 (str "u") (str "P") (str "M")
            [(str "project", Json.jstr [])] (str "antigravity") (str "agent") none :=
  ⟨rfl,
   (maybeWrap_spec (fun _ => str "W") 0 (str "u") (str "R") (str "P") (str "M")
      (str "antigravity") (str "agent") none).2.2
     [(str "project", Json.jstr [])] rfl⟩

/-! ### Health endpoint (`src/server/server.ts`) -/

/-- The object `healthCheck` serializes (before `JSON.stringify`). -/
def healthCheckBody (port : Int) (upstreamUrl : Str) (providers : ProxyProviders) :
    List (Str × Json) :=
  [(str "status", Json.jstr (str "ok")),
   (str "service", Json.jstr (str "ampcode-connector")),
   (str "port", Json.jnum port),
   (str "upstream", Json.jstr upstreamUrl),
   (str "providers", Json.jobj
     [(str "anthropic", Json.jbool providers.anthropic),
      (str "codex", Json.jbool providers.codex),
      (str "google", Json.jbool providers.google)])]

/-- `healthCheck(config)`: HTTP status and body object. -/
def healthCheck (port : Int) (upstreamUrl : Str) (providers : ProxyProviders) :
    Nat × List (Str × Json) :=
  (200, healthCheckBody port upstreamUrl providers)

/-- `GET /` and `GET /status` are the health-check paths of `handle`. -/
def isHealthPath (pathname : Str) : Bool :=
  decide (pathname = str "/") || decide (pathname = str "/status")

/-- C6, counterexample: the health-check body carries no `stats` field at
all — the serialized object has only status, service, port, upstream and
providers. -/
theorem healthCheck_stats_cx :
    ¬ (∀ (port : Int) (upstreamUrl : Str) (providers : ProxyProviders),
        (mget (str "stats") (healthCheck port upstreamUrl providers).2).isSome = true) := by
  intro h
  have := h 0 (str "") ⟨false, false, false⟩
  exact absurd this (by decide)

/-- C6, amended: `GET /` and `GET /status` answer 200 with the JSON body
`{status: "ok", service: "ampcode-connector", port, upstream,
providers: {anthropic, codex, google}}` — and nothing else: no `stats`
field is included. -/
theorem healthCheck_spec (port : Int) (upstreamUrl : Str) (providers : ProxyProviders) :
    isHealthPath (str "/") = true
    ∧ isHealthPath (str "/status") = true
    ∧ (healthCheck port upstreamUrl providers).1 = 200
    ∧ (healthCheck port upstreamUrl providers).2.map Prod.fst
      = [str "status", str "service", str "port", str "upstream", str "providers"]
    ∧ mget (str "status") (healthCheck port upstreamUrl providers).2
      = some (Json.jstr (str "ok"))
    ∧ mget (str "service") (healthCheck port upstreamUrl providers).2
      = some (Json.jstr (str "ampcode-connector"))
    ∧ mget (str "port") (healthCheck port upstreamUrl providers).2
      = some (Json.jnum port)
    ∧ mget (str "upstream") (healthCheck port upstreamUrl providers).2
      = some (Json.jstr upstreamUrl)
    ∧ mget (str "providers") (healthCheck port upstreamUrl providers).2
      = some (Json.jobj
          [(str "anthropic", Json.jbool providers.anthropic),
           (str "codex", Json.jbool providers.codex),
           (str "google", Json.jbool providers.google)])
    ∧ mget (str "stats") (healthCheck port upstreamUrl providers).2 = none :=
  ⟨rfl, rfl, rfl, rfl, rfl, rfl, rfl, rfl, rfl, rfl⟩

/-- C5, counterexample: the SSE framing layer is not round-trip safe for
every input.  The block `"event:\ndata: a\n\n"` parses to a record whose
`event` field is the empty string; `encode` drops the falsy header, so
re-parsing the encoding yields a record with no `event` field at all. -/
theorem sse_roundtrip_cx :
    ¬ (∀ x : Str, parse (((parse x).map encode).flatten) = parse x) := by
  intro h
  have := h (str "event:\ndata: a\n\n")
  exact absurd this (by decide)

/-- C5, amended: for every input whose parsed records carry no *empty*
`event` or `id` field (the empty string is falsy, so `encode` drops such a
header), encoding each parsed record and re-parsing the concatenation
yields exactly the same record sequence — events, ids, retries and
multi-line data payloads included. -/
theorem sse_roundtrip (x : Str)
    (h : ∀ c ∈ parse x, c.event ≠ some [] ∧ c.id ≠ some []) :
    parse (((parse x).map encode).flatten) = parse x :=
  parse_concat (parse x) (parse_wf h)

theorem sse_roundtrip_witness :
    (∀ c ∈ parse (str "event: e\ndata: a\ndata: b\n\nretry: 7\nid: i\ndata: z\n\n"),
      c.event ≠ some [] ∧ c.id ≠ some [])
    ∧ parse (((parse (str "event: e\ndata: a\ndata: b\n\nretry: 7\nid: i\ndata: z\n\n")).map
          encode).flatten)
      = parse (str "event: e\ndata: a\ndata: b\n\nretry: 7\nid: i\ndata: z\n\n") :=
  ⟨by decide,
   sse_roundtrip (str "event: e\ndata: a\ndata: b\n\nretry: 7\nid: i\ndata: z\n\n")
     (by decide)⟩
